import Mathlib

/-!
Verification of `src/rez/suite.py` (the `Suite` class, the `Alias` invoker and
the `_FWD__invoke_suite_tool_alias` dispatch entry point) against its
natural-language specification.

The Python source is shallowly embedded: the `Suite` object's mutable fields
become a `Suite` structure, in-place mutation becomes a returned updated value,
a raised `SuiteError` becomes an `Except` error value, and Python dicts become
association lists (key unique by construction; Python-2 dict iteration order is
not observable through the properties verified here, except where noted).
The opaque `ResolvedContext` collaborator is modelled by the `RContext`
structure exposing exactly the capabilities `suite.py` consumes:
`success`, `get_tools(request_only=True)` (a listing of
`(variant, tool_names)` pairs) and, for the invoker, `execute_shell`
(modelled by returning the `ShellCall` that would be passed to it).
The filesystem is modelled as a partial map from path-component lists to
serialized contexts (`Disk`).
-/

namespace RezSuite

/-- Opaque provenance reference identifying which package build provided a
tool (the `variant` values produced by `context.get_tools`). -/
abbrev Variant := Nat

/-- Model of the opaque `ResolvedContext`: `success` flag and the result of
`get_tools(request_only=True)`, whose dict values are iterated as a list of
`(variant, tool_names)` pairs. -/
structure RContext where
  success : Bool
  tools : List (Variant × List String)
deriving DecidableEq, Repr

/-- One value of the `self.contexts` dict in `Suite`: the per-context entry
created by `add_context`.  The Python dict may lack the `"prefix"` /
`"suffix"` keys (read back via `data.get("prefix", "")`), modelled as
`Option String` (the fields are named `pfx` / `sfx` only because `prefix` is a
Lean keyword); likewise the `"context"` key is deleted by `to_dict`, modelled
as `Option RContext`. -/
structure ContextData where
  name : String
  context : Option RContext
  tool_aliases : List (String × String)
  hidden_tools : List String
  description : Option String
  priority : Nat
  pfx : Option String
  sfx : Option String
deriving DecidableEq, Repr

/-- One entry of the winning tool table (`suite.py` lines 408-411). -/
structure ResolvedTool where
  tool_name : String
  tool_alias : String
  context_name : String
  variant : Variant
deriving DecidableEq, Repr

/-- The pair of tables computed by `Suite._update_tools`:
`self.tools` (winner per alias) and `self.tool_conflicts`
(losers per alias, a `defaultdict(list)`). -/
structure ToolTables where
  tools : List (String × ResolvedTool)
  tool_conflicts : List (String × List ResolvedTool)
deriving DecidableEq, Repr

/-- The distinct failure modes of `suite.py` (all raised as `SuiteError` with
distinguishing messages, plus the bare `assert self.load_path` and the
`ValueError` that `max()` raises on an empty sequence in `from_dict`). -/
inductive SuiteErr where
  | duplicateName
  | unresolvedContext
  | unknownContext
  | notASuite
  | corruptSuite
  | assertionFailed
  | ioError
  | valueError
deriving DecidableEq, Repr

deriving instance DecidableEq for Except

/-- The mutable state of a `Suite` object (`__init__`, lines 34-41). -/
structure Suite where
  load_path : Option String
  contexts : List (String × ContextData)
  next_priority : Nat
  tools : Option (List (String × ResolvedTool))
  tool_conflicts : Option (List (String × List ResolvedTool))
deriving DecidableEq, Repr

/-- The filesystem, as far as `suite.py` reads serialized contexts from it:
a partial map from path components (directory, subdirectory, filename) to the
`ResolvedContext` stored there. -/
abbrev Disk := List String → Option RContext

/-! ### Association-list helpers (Python dict operations) -/

/-- Dict lookup `d.get(k)`. -/
def alookup {β : Type} (l : List (String × β)) (k : String) : Option β :=
  match l with
  | [] => none
  | (k', v) :: t => if k' = k then some v else alookup t k

/-- Dict update `d[k] = v` for a key already present (value replaced in
place, position preserved); appends at the end for a fresh key. -/
def asetKey {β : Type} (l : List (String × β)) (k : String) (v : β) :
    List (String × β) :=
  match l with
  | [] => [(k, v)]
  | (k', v') :: t => if k' = k then (k', v) :: t else (k', v') :: asetKey t k v

/-- Dict deletion `del d[k]` (removes the first binding of `k`). -/
def adelKey {β : Type} (l : List (String × β)) (k : String) :
    List (String × β) :=
  match l with
  | [] => []
  | (k', v') :: t => if k' = k then t else (k', v') :: adelKey t k

theorem alookup_append {β : Type} (l1 l2 : List (String × β)) (k : String) :
    alookup (l1 ++ l2) k =
      match alookup l1 k with
      | some v => some v
      | none => alookup l2 k := by
  induction l1 with
  | nil => simp [alookup]
  | cons p t ih =>
    obtain ⟨k', v⟩ := p
    by_cases h : k' = k <;> simp [alookup, h, ih]

theorem alookup_asetKey_self {β : Type} (l : List (String × β)) (k : String)
    (v : β) : alookup (asetKey l k v) k = some v := by
  induction l with
  | nil => simp [alookup, asetKey]
  | cons p t ih =>
    obtain ⟨k', v'⟩ := p
    by_cases h : k' = k <;> simp [alookup, asetKey, h, ih]

theorem alookup_asetKey_ne {β : Type} (l : List (String × β)) (k k' : String)
    (v : β) (h : k ≠ k') : alookup (asetKey l k v) k' = alookup l k' := by
  induction l with
  | nil => simp [alookup, asetKey, h]
  | cons p t ih =>
    obtain ⟨k0, v0⟩ := p
    by_cases h0 : k0 = k
    · subst h0; simp [alookup, asetKey, h]
    · simp [alookup, asetKey, h0, ih]

theorem mem_asetKey {β : Type} (l : List (String × β)) (k : String) (v : β)
    (p : String × β) (hp : p ∈ asetKey l k v) : p ∈ l ∨ p = (k, v) := by
  induction l with
  | nil => simpa [asetKey] using hp
  | cons q t ih =>
    obtain ⟨k0, v0⟩ := q
    by_cases h0 : k0 = k
    · subst h0
      simp only [asetKey, if_pos rfl] at hp
      rcases List.mem_cons.mp hp with h | h
      · right; simpa using h
      · left; exact List.mem_cons_of_mem _ h
    · simp only [asetKey, if_neg h0] at hp
      rcases List.mem_cons.mp hp with h | h
      · left; exact h ▸ List.mem_cons_self _ _
      · rcases ih h with h' | h'
        · left; exact List.mem_cons_of_mem _ h'
        · right; exact h'

theorem mem_adelKey {β : Type} (l : List (String × β)) (k : String)
    (p : String × β) (hp : p ∈ adelKey l k) : p ∈ l := by
  induction l with
  | nil => simp [adelKey] at hp
  | cons q t ih =>
    obtain ⟨k0, v0⟩ := q
    by_cases h0 : k0 = k
    · subst h0
      simp only [adelKey, if_pos rfl] at hp
      exact List.mem_cons_of_mem _ hp
    · simp only [adelKey, if_neg h0] at hp
      rcases List.mem_cons.mp hp with h | h
      · exact h ▸ List.mem_cons_self _ _
      · exact List.mem_cons_of_mem _ (ih h)

/-! ### Suite operations (`suite.py` lines 50-195, 232-311)

Each Python method ending in `self._flush_tools()` is embedded as a function
returning the updated `Suite` with `tools := none, tool_conflicts := none`;
a method that raises before touching `self` is embedded as a function
returning `.error e` (the caller's suite value is then unchanged by
construction, mirroring raise-before-mutation). -/

/-- `Suite._context(name)` (lines 366-370): dict lookup raising `SuiteError`
when missing. -/
def Suite.ctxData (s : Suite) (name : String) : Except SuiteErr ContextData :=
  match alookup s.contexts name with
  | none => .error .unknownContext
  | some d => .ok d

/-- `Suite._flush_tools` (lines 381-383). -/
def Suite.flush_tools (s : Suite) : Suite :=
  { s with tools := none, tool_conflicts := none }

/-- `Suite.context(name)` (lines 50-68): returns the live context if the
entry holds one; otherwise asserts `self.load_path`, loads
`<load_path>/contexts/<name>.rxt` from disk, caches it in the entry, and
returns it.  The returned `Suite` carries the caching side effect
(`data["context"] = context`). -/
def Suite.contextGet (disk : Disk) (s : Suite) (name : String) :
    Except SuiteErr (RContext × Suite) :=
  match s.ctxData name with
  | .error e => .error e
  | .ok data =>
  match data.context with
  | some c => .ok (c, s)
  | none =>
    match s.load_path with
    | none => .error .assertionFailed
    | some p =>
      match disk [p, "contexts", name ++ ".rxt"] with
      | none => .error .ioError
      | some c =>
        .ok (c, { s with
          contexts := asetKey s.contexts name { data with context := some c } })

/-- `Suite.add_context(name, context, description)` (lines 70-89). -/
def Suite.add_context (s : Suite) (name : String) (context : RContext)
    (description : Option String) : Except SuiteErr Suite :=
  if (alookup s.contexts name).isSome then .error .duplicateName
  else if !context.success then .error .unresolvedContext
  else .ok { s with
    contexts := s.contexts ++
      [(name, { name := name, context := some context, tool_aliases := [],
                hidden_tools := [], description := description,
                priority := s.next_priority, pfx := none, sfx := none })],
    next_priority := s.next_priority + 1,
    tools := none, tool_conflicts := none }

/-- `Suite.remove_context(name)` (lines 91-99). -/
def Suite.remove_context (s : Suite) (name : String) : Except SuiteErr Suite :=
  match s.ctxData name with
  | .error e => .error e
  | .ok _ =>
    .ok { s with contexts := adelKey s.contexts name,
                 tools := none, tool_conflicts := none }

/-- `Suite.set_context_prefix(name, prefix)` (lines 101-115): sets the
entry's `"prefix"` key and re-assigns its priority to the next value. -/
def Suite.set_context_pfx (s : Suite) (name p : String) :
    Except SuiteErr Suite :=
  match s.ctxData name with
  | .error e => .error e
  | .ok data =>
    .ok { s with
    contexts := asetKey s.contexts name
      { data with pfx := some p, priority := s.next_priority },
    next_priority := s.next_priority + 1,
    tools := none, tool_conflicts := none }

/-- `Suite.set_context_suffix(name, suffix)` (lines 117-131). -/
def Suite.set_context_sfx (s : Suite) (name p : String) :
    Except SuiteErr Suite :=
  match s.ctxData name with
  | .error e => .error e
  | .ok data =>
    .ok { s with
    contexts := asetKey s.contexts name
      { data with sfx := some p, priority := s.next_priority },
    next_priority := s.next_priority + 1,
    tools := none, tool_conflicts := none }

/-- `Suite.bump_context(name)` (lines 133-137). -/
def Suite.bump_context (s : Suite) (name : String) : Except SuiteErr Suite :=
  match s.ctxData name with
  | .error e => .error e
  | .ok data =>
    .ok { s with
    contexts := asetKey s.contexts name
      { data with priority := s.next_priority },
    next_priority := s.next_priority + 1,
    tools := none, tool_conflicts := none }

/-- `Suite.hide_tool(context_name, tool_name)` (lines 139-150): inserts into
the `hidden_tools` set and flushes only when not already present. -/
def Suite.hide_tool (s : Suite) (context_name tool_name : String) :
    Except SuiteErr Suite :=
  match s.ctxData context_name with
  | .error e => .error e
  | .ok data =>
    if tool_name ∈ data.hidden_tools then .ok s
    else .ok { s with
    contexts := asetKey s.contexts context_name
      { data with hidden_tools := data.hidden_tools ++ [tool_name] },
    tools := none, tool_conflicts := none }

/-- `Suite.unhide_tool(context_name, tool_name)` (lines 152-166). -/
def Suite.unhide_tool (s : Suite) (context_name tool_name : String) :
    Except SuiteErr Suite :=
  match s.ctxData context_name with
  | .error e => .error e
  | .ok data =>
    if tool_name ∈ data.hidden_tools then
      .ok { s with
      contexts := asetKey s.contexts context_name
        { data with hidden_tools := data.hidden_tools.erase tool_name },
      tools := none, tool_conflicts := none }
  else .ok s

/-- `Suite.alias_tool(context_name, tool_name, tool_alias)` (lines 168-182):
note the guard is `if tool_name not in aliases` — membership of the KEY only,
regardless of the currently mapped alias value. -/
def Suite.alias_tool (s : Suite) (context_name tool_name tool_alias : String) :
    Except SuiteErr Suite :=
  match s.ctxData context_name with
  | .error e => .error e
  | .ok data =>
    if (alookup data.tool_aliases tool_name).isSome then .ok s
    else .ok { s with
    contexts := asetKey s.contexts context_name
      { data with tool_aliases := data.tool_aliases ++ [(tool_name, tool_alias)] },
    tools := none, tool_conflicts := none }

/-- `Suite.dealias_tool(context_name, tool_name)` (lines 184-195). -/
def Suite.dealias_tool (s : Suite) (context_name tool_name : String) :
    Except SuiteErr Suite :=
  match s.ctxData context_name with
  | .error e => .error e
  | .ok data =>
    if (alookup data.tool_aliases tool_name).isSome then
      .ok { s with
      contexts := asetKey s.contexts context_name
        { data with tool_aliases := adelKey data.tool_aliases tool_name },
      tools := none, tool_conflicts := none }
  else .ok s

/-- The per-entry copy made by `to_dict` (lines 235-237): the `"context"`
key deleted, every other field kept. -/
def stripCtx (d : ContextData) : ContextData := { d with context := none }

/-- `Suite.to_dict` (lines 232-240): per-entry copy with the `"context"` key
deleted. -/
def Suite.to_dict (s : Suite) : List (String × ContextData) :=
  s.contexts.map fun p => (p.1, stripCtx p.2)

/-- Maximum of a list of priorities; `none` on the empty list (where Python's
`max()` raises `ValueError`). -/
def maxPriority : List Nat → Option Nat
  | [] => none
  | x :: t =>
    match maxPriority t with
    | none => some x
    | some m => some (max x m)

/-- `Suite.from_dict` (lines 242-251): rebuilds a suite with no load path, an
invalid tool cache and `next_priority` one past the maximum stored
priority. -/
def Suite.from_dict (contexts : List (String × ContextData)) :
    Except SuiteErr Suite :=
  match maxPriority (contexts.map fun p => p.2.priority) with
  | none => .error .valueError
  | some m => .ok { load_path := none, contexts := contexts,
                    next_priority := m + 1, tools := none,
                    tool_conflicts := none }

/-! ### Tool resolution (`suite.py` lines 372-416)

`_sorted_contexts` is Python's stable `sorted(contexts.values(),
key=priority)`; it is embedded as a stable insertion sort on the priority
key.  `_update_tools` iterates `reversed(...)` of that, i.e. contexts in
descending priority order, and for every non-hidden tool of every variant of
each context either claims the alias in `self.tools` or appends the entry to
`self.tool_conflicts[alias]`. -/

/-- The comparison key of `_sorted_contexts` (`key=lambda x: x["priority"]`). -/
def ctxLE (x y : ContextData) : Prop := x.priority ≤ y.priority

instance : DecidableRel ctxLE := fun x y => Nat.decLe x.priority y.priority

instance : IsTotal ContextData ctxLE :=
  ⟨fun x y => Nat.le_total x.priority y.priority⟩

instance : IsTrans ContextData ctxLE :=
  ⟨fun _ _ _ h1 h2 => Nat.le_trans h1 h2⟩

/-- `Suite._sorted_contexts` (lines 372-373): Python's stable
`sorted(contexts.values(), key=priority)`, embedded as a stable insertion
sort by ascending priority. -/
def Suite.sorted_contexts (s : Suite) : List ContextData :=
  List.insertionSort ctxLE (s.contexts.map Prod.snd)

/-- `reversed(self._sorted_contexts())` as consumed by `_update_tools`:
context entries in descending priority order. -/
def Suite.sortedDescCtxs (s : Suite) : List ContextData :=
  s.sorted_contexts.reverse

/-- The final exposed alias of a tool (`_update_tools` lines 404-406): the
entry's explicit alias when registered, else `prefix + name + suffix`. -/
def aliasOf (d : ContextData) (tool_name : String) : String :=
  match alookup d.tool_aliases tool_name with
  | some a => a
  | none => (d.pfx.getD "") ++ tool_name ++ (d.sfx.getD "")

/-- `self.tool_conflicts[alias].append(entry)` on a `defaultdict(list)`:
appends to the existing list in place, or creates the key with a singleton
list. -/
def addConflict (l : List (String × List ResolvedTool)) (a : String)
    (rt : ResolvedTool) : List (String × List ResolvedTool) :=
  match l with
  | [] => [(a, [rt])]
  | (k, v) :: t =>
    if k = a then (k, v ++ [rt]) :: t else (k, v) :: addConflict t a rt

/-- The claim step of `_update_tools` (lines 413-416): a tool entry either
claims its alias in the winning table or is appended to the alias's conflict
list. -/
def insertRT (acc : ToolTables) (rt : ResolvedTool) : ToolTables :=
  if (alookup acc.tools rt.tool_alias).isSome then
    { acc with tool_conflicts := addConflict acc.tool_conflicts rt.tool_alias rt }
  else
    { acc with tools := acc.tools ++ [(rt.tool_alias, rt)] }

/-- The body of the innermost loop of `_update_tools` (lines 401-416):
skip hidden tools, compute the alias, build the entry, claim or record the
conflict. -/
def processTool (d : ContextData) (variant : Variant) (acc : ToolTables)
    (tool_name : String) : ToolTables :=
  if tool_name ∈ d.hidden_tools then acc
  else insertRT acc { tool_name := tool_name, tool_alias := aliasOf d tool_name,
                      context_name := d.name, variant := variant }

/-- One iteration of the outer loop of `_update_tools` (lines 391-416) for a
context entry whose context has been materialized. -/
def processEntry (acc : ToolTables) (p : ContextData × RContext) : ToolTables :=
  p.2.tools.foldl (fun a2 vt => vt.2.foldl (processTool p.1 vt.1) a2) acc

/-- The context fetch inside `_update_tools` (line 398,
`self.context(data["name"])`, value component only): the entry looked up by
the stored name supplies a live context, or the serialized snapshot is read
from the load path. -/
def materializeFor (disk : Disk) (s : Suite) (cn : String) : Option RContext :=
  match alookup s.contexts cn with
  | none => none
  | some data =>
    match data.context with
    | some c => some c
    | none =>
      match s.load_path with
      | none => none
      | some p => disk [p, "contexts", cn ++ ".rxt"]

/-- Pair every context entry of a list with its materialized context,
failing (as the Python loop raises) when any is unavailable. -/
def materializeList (disk : Disk) (s : Suite) :
    List ContextData → Option (List (ContextData × RContext))
  | [] => some []
  | d :: t =>
    match materializeFor disk s d.name, materializeList disk s t with
    | some c, some L => some ((d, c) :: L)
    | _, _ => none

/-- Materialize the context of every entry of the descending-priority order.
The caching side effect of `Suite.context` during the loop is dropped: with
an immutable `disk` the cached value always equals what would be re-read, so
the computed tables are unaffected. -/
def Suite.materializedCtxs (disk : Disk) (s : Suite) :
    Option (List (ContextData × RContext)) :=
  materializeList disk s s.sortedDescCtxs

/-- `Suite._update_tools` (lines 385-416), recomputation part: the fresh
winning and conflict tables, starting from empty tables and processing every
context entry in descending priority order.  `none` when some context cannot
be materialized. -/
def computeTables (disk : Disk) (s : Suite) : Option ToolTables :=
  (s.materializedCtxs disk).map (List.foldl processEntry ⟨[], []⟩)

/-- `Suite._update_tools` including its memoization guard (lines 386-387):
returns the suite unchanged when `self.tools is not None`, else stores the
recomputed tables. -/
def Suite.update_tools (disk : Disk) (s : Suite) : Option Suite :=
  match s.tools with
  | some _ => some s
  | none =>
    (computeTables disk s).map fun tb =>
      { s with tools := some tb.tools, tool_conflicts := some tb.tool_conflicts }

/-- `Suite.get_alias_conflicts(tool_alias)` (lines 219-230):
`_update_tools` then `self.tool_conflicts.get(tool_alias)` (`None` when
absent, not an error). -/
def Suite.get_alias_conflicts (disk : Disk) (s : Suite) (tool_alias : String) :
    Option (Suite × Option (List ResolvedTool)) :=
  (s.update_tools disk).map fun s' =>
    (s', alookup (s'.tool_conflicts.getD []) tool_alias)

/-! ### Persistence (`suite.py` lines 253-311)

`save` writes `suite.yaml` (the `to_dict` document), one `.rxt` snapshot per
context under `contexts/`, and one forwarding stub per winning alias under
`bin/` carrying the `(context_name, tool_name)` pair fixed at generation
time.  It is embedded as a function from the suite (and the disk backing any
lazily-loaded contexts) to the value content written, `none` when a context
snapshot or the tool tables cannot be produced.  `load` reads the metadata
document back through `from_dict` and records the load path; snapshots stay
on disk until first access. -/

/-- The on-disk content of a saved suite that later steps read back. -/
structure SavedSuite where
  suite_yaml : List (String × ContextData)
  ctxFiles : List (String × RContext)
  stubs : List (String × String × String)
deriving DecidableEq, Repr

/-- The snapshot-writing loop of `save` (lines 267-273): one serialized
context per key of `self.contexts`, failing when any context is
unavailable. -/
def snapshotList (disk : Disk) (s : Suite) :
    List (String × ContextData) → Option (List (String × RContext))
  | [] => some []
  | p :: t =>
    match materializeFor disk s p.1, snapshotList disk s t with
    | some c, some L => some ((p.1, c) :: L)
    | _, _ => none

/-- `Suite.save(path)` (lines 253-293), value content: the metadata document,
the per-context snapshots (`self.context(name)` for each key `name`), and the
`(alias, context_name, tool_name)` triple embedded in each generated
forwarding stub. -/
def Suite.save (disk : Disk) (s : Suite) : Option SavedSuite :=
  match snapshotList disk s s.contexts, computeTables disk s with
  | some files, some tb =>
    some { suite_yaml := s.to_dict,
           ctxFiles := files,
           stubs := tb.tools.map fun q =>
             (q.1, q.2.context_name, q.2.tool_name) }
  | _, _ => none

/-- The disk as seen after `Suite.save` wrote into directory `path`: the
serialized snapshot of context `name` lives at `path/contexts/<name>.rxt`. -/
def SavedSuite.diskAt (sv : SavedSuite) (path : String) : Disk :=
  fun q =>
    (sv.ctxFiles.find? fun p => [path, "contexts", p.1 ++ ".rxt"] = q).map
      Prod.snd

/-- `Suite.load(path)` (lines 295-311), applied to a directory holding a
saved suite: parse the metadata document via `from_dict` and record the load
path.  (The missing-file and unparsable-YAML branches raise `NotASuiteError`
and `CorruptSuiteError` before `from_dict` runs; they are outside this
value-level round trip.) -/
def Suite.loadSaved (sv : SavedSuite) (path : String) : Except SuiteErr Suite :=
  (Suite.from_dict sv.suite_yaml).map fun s => { s with load_path := some path }

/-! ### The alias invoker (`suite.py` lines 419-493)

`Alias.run` parses the live process's command line (note: the constructor
argument `cli_args` is stored in `self.cli_args` but `run` calls
`parser.parse_known_args()` with no argument, which parses `sys.argv[1:]`),
then decides the command and calls `context.execute_shell`.  The embedding
makes the implicit process state explicit: `sysArgv` is `sys.argv[1:]` and
`stdinReady` is the result of the zero-timeout `select` on stdin.  Execution
itself is modelled by returning the `ShellCall` handed to
`context.execute_shell`. -/

/-- The five options of the `+`-dialect parser after parsing (the `opts`
namespace of `parse_known_args`). -/
structure AliasOpts where
  interactive : Bool
  command : Option (List String)
  rcfile : Option String
  norc : Bool
  stdin : Bool
deriving DecidableEq, Repr

/-- The `AliasOpts` defaults before any option is seen. -/
def AliasOpts.init : AliasOpts :=
  { interactive := false, command := none, rcfile := none,
    norc := false, stdin := false }

/-- Whether argparse (with `prefix_chars="+"`) treats a token as an option:
it starts with `+` and is longer than the bare prefix character. -/
def isOptTok (t : String) : Bool :=
  match t.data with
  | c :: _ :: _ => c = '+'
  | _ => false

/-- The argument-consuming loop of `parser.parse_known_args()` for the parser
built in `Alias.run` (lines 434-456): exact option tokens `+i/++interactive`,
`+c/++command` (greedy `nargs='+'`, stopping at the next option-like token
and failing when it captures nothing), `++rcfile` (one argument), `++norc`,
`+s/++stdin`; every unrecognized token is passed through to the extras
(`tool_args`).  Argparse's prefix abbreviations and `++opt=value` spellings
are not modelled; the dialect is used with exact tokens throughout. -/
def parseLoop (fuel : Nat) (args : List String) (o : AliasOpts)
    (extras : List String) : Except Unit (AliasOpts × List String) :=
  match args with
  | [] => .ok (o, extras)
  | t :: rest =>
    match fuel with
    | 0 => .error ()
    | fuel + 1 =>
      if t = "+i" ∨ t = "++interactive" then
        parseLoop fuel rest { o with interactive := true } extras
      else if t = "+c" ∨ t = "++command" then
        let captured := rest.takeWhile fun x => !isOptTok x
        if captured.isEmpty then .error ()
        else parseLoop fuel (rest.drop captured.length)
               { o with command := some captured } extras
      else if t = "++rcfile" then
        match rest with
        | [] => .error ()
        | x :: rest2 =>
          if isOptTok x then .error ()
          else parseLoop fuel rest2 { o with rcfile := some x } extras
      else if t = "++norc" then
        parseLoop fuel rest { o with norc := true } extras
      else if t = "+s" ∨ t = "++stdin" then
        parseLoop fuel rest { o with stdin := true } extras
      else
        parseLoop fuel rest o (extras ++ [t])

/-- `opts, tool_args = parser.parse_known_args()` (line 456).  The fuel
`args.length` never runs out: every loop iteration consumes at least one
token. -/
def parseKnownArgs (args : List String) :
    Except Unit (AliasOpts × List String) :=
  parseLoop args.length args AliasOpts.init []

/-- The argument record of the `context.execute_shell(...)` call issued by
`Alias.run` (lines 478-482), together with the `config.override("prompt", ...)`
side effect of the interactive branch. -/
structure ShellCall where
  command : Option (List String)
  stdin : Bool
  rcfile : Option String
  norc : Bool
  promptOverride : Option String
deriving DecidableEq, Repr

/-- The state of an `Alias` object (lines 422-426).  `context` is omitted:
`run` only forwards it to `execute_shell`, which the embedding models by
returning the `ShellCall`. -/
structure Alias where
  context_name : String
  tool_name : String
  cli_args : List String
deriving DecidableEq, Repr

/-- Python truthiness of `opts.command` (`if opts.command:` at line 469):
true only for a non-empty list. -/
def cmdTruthy : Option (List String) → Bool
  | some (_ :: _) => true
  | _ => false

/-- `Alias.run` (lines 428-483).  `sysArgv` is the live process's
`sys.argv[1:]` (what `parse_known_args()` actually parses — `self.cli_args`
is never read); `stdinReady` is whether the zero-timeout `select` on stdin
reported ready input.  Returns the dialect-parse error, or the
`execute_shell` call that is issued. -/
def Alias.run (a : Alias) (sysArgv : List String) (stdinReady : Bool) :
    Except Unit ShellCall :=
  match parseKnownArgs sysArgv with
  | .error e => .error e
  | .ok (opts0, tool_args) =>
    let opts := if opts0.stdin ∧ ¬stdinReady then { opts0 with stdin := false }
                else opts0
    if cmdTruthy opts.command then
      .ok { command := opts.command, stdin := opts.stdin,
            rcfile := opts.rcfile, norc := opts.norc, promptOverride := none }
    else if opts.interactive then
      .ok { command := none, stdin := opts.stdin, rcfile := opts.rcfile,
            norc := opts.norc,
            promptOverride := some (a.context_name ++ ">") }
    else
      .ok { command := some (a.tool_name :: tool_args), stdin := opts.stdin,
            rcfile := opts.rcfile, norc := opts.norc, promptOverride := none }

/-- `_FWD__invoke_suite_tool_alias` (lines 486-493), value level: the stub at
`<suite>/bin/<alias>` locates the suite root relative to its own path, loads
`contexts/<context_name>.rxt`, builds the `Alias` and runs it.  `suitePath`
is the directory two levels above the stub script; the process exit code is
`Alias.run`'s return code. -/
def invoke_suite_tool_alias (disk : Disk) (context_name tool_name : String)
    (suitePath : String) (sysArgv : List String) (stdinReady : Bool) :
    Except Unit ShellCall :=
  match disk [suitePath, "contexts", context_name ++ ".rxt"] with
  | none => .error ()
  | some _ =>
    Alias.run { context_name := context_name, tool_name := tool_name,
                cli_args := sysArgv } sysArgv stdinReady

/-! ### Characterization of the resolution fold

The nested loops of `_update_tools` are fused into a single left fold of
`insertRT` over the flat stream of claims `(tool, alias, context, variant)`
emitted in processing order; the winning and conflict tables are then
characterized per alias as head and tail of the claim stream restricted to
that alias. -/

/-- The claims a single tool name contributes (empty when hidden). -/
def toolClaims (d : ContextData) (v : Variant) (tn : String) :
    List ResolvedTool :=
  if tn ∈ d.hidden_tools then []
  else [{ tool_name := tn, tool_alias := aliasOf d tn,
          context_name := d.name, variant := v }]

/-- All claims one context entry contributes, in listing order. -/
def claimsOf (d : ContextData) (c : RContext) : List ResolvedTool :=
  c.tools.flatMap fun vt => vt.2.flatMap (toolClaims d vt.1)

/-- The full claim stream of a materialized entry list, in processing
order. -/
def streamOf (L : List (ContextData × RContext)) : List ResolvedTool :=
  L.flatMap fun p => claimsOf p.1 p.2

/-- Folding the claim step over a claim stream. -/
def tablesOfStream (l : List ResolvedTool) : ToolTables :=
  l.foldl insertRT ⟨[], []⟩

/-- The claims of a stream that target one alias. -/
def filterAlias (l : List ResolvedTool) (a : String) : List ResolvedTool :=
  l.filter fun rt => rt.tool_alias == a

theorem foldl_fuse {α : Type} (f : ToolTables → α → ToolTables)
    (g : α → List ResolvedTool)
    (hf : ∀ acc x, f acc x = (g x).foldl insertRT acc) (l : List α)
    (acc : ToolTables) :
    l.foldl f acc = (l.flatMap g).foldl insertRT acc := by
  induction l generalizing acc with
  | nil => simp
  | cons x t ih =>
    rw [List.foldl_cons, List.flatMap_cons, List.foldl_append, hf, ih]

theorem processTool_eq_foldl (d : ContextData) (v : Variant) (acc : ToolTables)
    (tn : String) :
    processTool d v acc tn = (toolClaims d v tn).foldl insertRT acc := by
  by_cases h : tn ∈ d.hidden_tools <;> simp [processTool, toolClaims, h]

theorem processEntry_eq_foldl (acc : ToolTables) (p : ContextData × RContext) :
    processEntry acc p = (claimsOf p.1 p.2).foldl insertRT acc := by
  obtain ⟨d, c⟩ := p
  show c.tools.foldl (fun a2 vt => vt.2.foldl (processTool d vt.1) a2) acc = _
  simp only [claimsOf]
  exact foldl_fuse _ _
    (fun acc vt => foldl_fuse (processTool d vt.1) (toolClaims d vt.1)
      (fun a tn => processTool_eq_foldl d vt.1 a tn) vt.2 acc)
    c.tools acc

theorem foldl_processEntry_eq (L : List (ContextData × RContext))
    (acc : ToolTables) :
    L.foldl processEntry acc = (streamOf L).foldl insertRT acc :=
  foldl_fuse processEntry (fun p => claimsOf p.1 p.2)
    (fun a p => processEntry_eq_foldl a p) L acc

theorem computeTables_eq_stream (disk : Disk) (s : Suite)
    (L : List (ContextData × RContext))
    (h : s.materializedCtxs disk = some L) :
    computeTables disk s = some (tablesOfStream (streamOf L)) := by
  simp [computeTables, Suite.materializedCtxs] at h ⊢
  rw [show materializeList disk s s.sortedDescCtxs = some L from h]
  simp [tablesOfStream, foldl_processEntry_eq]

theorem alookup_addConflict_self (l : List (String × List ResolvedTool))
    (a : String) (rt : ResolvedTool) :
    alookup (addConflict l a rt) a = some ((alookup l a).getD [] ++ [rt]) := by
  induction l with
  | nil => simp [addConflict, alookup]
  | cons p t ih =>
    obtain ⟨k, v⟩ := p
    by_cases h : k = a <;> simp [addConflict, alookup, h, ih]

theorem alookup_addConflict_ne (l : List (String × List ResolvedTool))
    (a b : String) (rt : ResolvedTool) (h : a ≠ b) :
    alookup (addConflict l a rt) b = alookup l b := by
  induction l with
  | nil => simp [addConflict, alookup, h]
  | cons p t ih =>
    obtain ⟨k, v⟩ := p
    by_cases hk : k = a
    · subst hk; simp [addConflict, alookup, h, ih]
    · by_cases hb : k = b <;>
        simp [addConflict, alookup, hk, hb, ih, Ne.symm h]

theorem alookup_append_singleton_ne {β : Type} (l : List (String × β))
    (k a : String) (v : β) (h : k ≠ a) :
    alookup (l ++ [(k, v)]) a = alookup l a := by
  rw [alookup_append]
  cases hl : alookup l a <;> simp [alookup, h]

theorem filterAlias_append (l1 l2 : List ResolvedTool) (a : String) :
    filterAlias (l1 ++ l2) a = filterAlias l1 a ++ filterAlias l2 a := by
  simp [filterAlias]

/-- Per-alias characterization of the resolution fold: the winner is the
first claim of the alias in stream order, and the conflict-table entry is the
list of all later claims (present only when the alias is claimed at least
twice). -/
theorem tablesOfStream_spec (l : List ResolvedTool) (a : String) :
    alookup (tablesOfStream l).tools a = (filterAlias l a).head? ∧
    alookup (tablesOfStream l).tool_conflicts a =
      (if 2 ≤ (filterAlias l a).length
       then some (filterAlias l a).tail else none) := by
  induction l using List.reverseRecOn with
  | nil => constructor <;> simp [tablesOfStream, alookup, filterAlias]
  | append_singleton l x ih =>
    obtain ⟨ih1, ih2⟩ := ih
    have hstep : tablesOfStream (l ++ [x]) = insertRT (tablesOfStream l) x := by
      simp [tablesOfStream, List.foldl_append]
    by_cases hx : x.tool_alias = a
    · subst hx
      have hfa : filterAlias (l ++ [x]) x.tool_alias =
          filterAlias l x.tool_alias ++ [x] := by
        simp [filterAlias_append, filterAlias]
      cases h : alookup (tablesOfStream l).tools x.tool_alias with
      | some rt =>
        have hins : insertRT (tablesOfStream l) x =
            { tablesOfStream l with
              tool_conflicts :=
                addConflict (tablesOfStream l).tool_conflicts x.tool_alias x } := by
          simp [insertRT, h]
        have hh : (filterAlias l x.tool_alias).head? = some rt := by
          rw [← ih1]; exact h
        obtain ⟨rest, hrest⟩ : ∃ rest,
            filterAlias l x.tool_alias = rt :: rest := by
          cases hfl : filterAlias l x.tool_alias with
          | nil => rw [hfl] at hh; simp at hh
          | cons y t =>
            rw [hfl] at hh
            simp only [List.head?_cons, Option.some.injEq] at hh
            refine ⟨t, ?_⟩
            rw [hh]
        constructor
        · rw [hstep, hins, hfa, hrest]
          simpa using h
        · rw [hstep, hins, hfa, hrest]
          show alookup
              (addConflict (tablesOfStream l).tool_conflicts x.tool_alias x)
              x.tool_alias = _
          rw [alookup_addConflict_self]
          rw [hrest] at ih2
          cases rest with
          | nil =>
            simp only [List.length_cons, List.length_nil] at ih2
            rw [if_neg (by omega)] at ih2
            rw [ih2]
            simp
          | cons z zs =>
            rw [if_pos (by simp)] at ih2
            rw [ih2]
            rw [if_pos (by simp)]
            simp
      | none =>
        have hins : insertRT (tablesOfStream l) x =
            { tablesOfStream l with
              tools := (tablesOfStream l).tools ++ [(x.tool_alias, x)] } := by
          simp [insertRT, h]
        rw [h] at ih1
        have hfl : filterAlias l x.tool_alias = [] := by
          cases hfl : filterAlias l x.tool_alias with
          | nil => rfl
          | cons y t => rw [hfl] at ih1; simp at ih1
        constructor
        · rw [hstep, hins, hfa, hfl]
          simp [alookup_append, h, alookup]
        · rw [hstep, hins, hfa, hfl]
          rw [hfl] at ih2
          simp at ih2
          simpa using ih2
    · have hfa : filterAlias (l ++ [x]) a = filterAlias l a := by
        rw [filterAlias_append]
        simp [filterAlias, hx]
      cases h : alookup (tablesOfStream l).tools x.tool_alias with
      | some rt =>
        have hins : insertRT (tablesOfStream l) x =
            { tablesOfStream l with
              tool_conflicts :=
                addConflict (tablesOfStream l).tool_conflicts x.tool_alias x } := by
          simp [insertRT, h]
        constructor
        · rw [hstep, hins, hfa]; exact ih1
        · rw [hstep, hins, hfa]
          rw [alookup_addConflict_ne _ _ _ _ hx]
          exact ih2
      | none =>
        have hins : insertRT (tablesOfStream l) x =
            { tablesOfStream l with
              tools := (tablesOfStream l).tools ++ [(x.tool_alias, x)] } := by
          simp [insertRT, h]
        constructor
        · rw [hstep, hins, hfa]
          rw [alookup_append_singleton_ne _ _ _ _ hx]
          exact ih1
        · rw [hstep, hins, hfa]; exact ih2

/-! ### Provenance and priority ordering of the claim stream -/

/-- Well-formedness of the `self.contexts` dict, automatic for dicts built by
the `Suite` methods: each entry's stored `"name"` equals its key, and keys
are unique. -/
def Suite.WF (s : Suite) : Prop :=
  (∀ p ∈ s.contexts, p.2.name = p.1) ∧ (s.contexts.map Prod.fst).Nodup

instance (s : Suite) : Decidable s.WF := by
  unfold Suite.WF; infer_instance

/-- A context entry exposes final alias `a` when some variant provides a
non-hidden tool whose computed alias is `a`. -/
def exposesAlias (d : ContextData) (c : RContext) (a : String) : Prop :=
  ∃ rt ∈ claimsOf d c, rt.tool_alias = a

instance (d : ContextData) (c : RContext) (a : String) :
    Decidable (exposesAlias d c a) := by
  unfold exposesAlias; infer_instance

/-- The priority of the context entry that the `self.contexts` dict currently
stores under a resolved tool's `context_name` (`0` when absent; under `WF`
every claim's context is present). -/
def claimPriority (s : Suite) (rt : ResolvedTool) : Nat :=
  ((alookup s.contexts rt.context_name).map ContextData.priority).getD 0

theorem alookup_of_mem_nodup {β : Type} (l : List (String × β)) (k : String)
    (v : β) (hnd : (l.map Prod.fst).Nodup) (hm : (k, v) ∈ l) :
    alookup l k = some v := by
  induction l with
  | nil => simp at hm
  | cons p t ih =>
    obtain ⟨k0, v0⟩ := p
    simp only [List.map_cons, List.nodup_cons] at hnd
    rcases List.mem_cons.mp hm with h | h
    · injection h with h1 h2
      subst h1; subst h2
      simp [alookup]
    · have hk0 : k0 ≠ k := by
        intro hk; subst hk
        exact hnd.1 (List.mem_map.mpr ⟨(k0, v), h, rfl⟩)
      simp [alookup, hk0, ih hnd.2 h]

theorem mem_toolClaims {d : ContextData} {v : Variant} {tn : String}
    {rt : ResolvedTool} (h : rt ∈ toolClaims d v tn) :
    tn ∉ d.hidden_tools ∧
      rt = { tool_name := tn, tool_alias := aliasOf d tn,
             context_name := d.name, variant := v } := by
  by_cases hh : tn ∈ d.hidden_tools
  · simp [toolClaims, hh] at h
  · simp [toolClaims, hh] at h
    exact ⟨hh, h⟩

theorem mem_claimsOf {d : ContextData} {c : RContext} {rt : ResolvedTool}
    (h : rt ∈ claimsOf d c) :
    rt.context_name = d.name ∧ rt.tool_name ∉ d.hidden_tools ∧
      rt.tool_alias = aliasOf d rt.tool_name ∧
      ∃ vt ∈ c.tools, rt.variant = vt.1 ∧ rt.tool_name ∈ vt.2 := by
  simp only [claimsOf, List.mem_flatMap] at h
  obtain ⟨vt, hvt, tn, htn, hcl⟩ := h
  obtain ⟨hhid, rfl⟩ := mem_toolClaims hcl
  exact ⟨rfl, hhid, rfl, vt, hvt, rfl, htn⟩

theorem mem_streamOf {L : List (ContextData × RContext)} {rt : ResolvedTool}
    (h : rt ∈ streamOf L) : ∃ p ∈ L, rt ∈ claimsOf p.1 p.2 :=
  List.mem_flatMap.mp h

theorem materializeList_fst (disk : Disk) (s : Suite) (ds : List ContextData)
    (L : List (ContextData × RContext))
    (h : materializeList disk s ds = some L) : L.map Prod.fst = ds := by
  induction ds generalizing L with
  | nil => simp [materializeList] at h; simp [← h]
  | cons d t ih =>
    simp only [materializeList] at h
    cases hm : materializeFor disk s d.name with
    | none => rw [hm] at h; simp at h
    | some c =>
      rw [hm] at h
      cases ht : materializeList disk s t with
      | none => rw [ht] at h; simp at h
      | some L' =>
        rw [ht] at h
        simp only [Option.some.injEq] at h
        subst h
        simp [ih L' ht]

theorem materializeList_mem (disk : Disk) (s : Suite) (ds : List ContextData)
    (L : List (ContextData × RContext))
    (h : materializeList disk s ds = some L) (p : ContextData × RContext)
    (hp : p ∈ L) : p.1 ∈ ds ∧ materializeFor disk s p.1.name = some p.2 := by
  induction ds generalizing L with
  | nil => simp [materializeList] at h; subst h; simp at hp
  | cons d t ih =>
    simp only [materializeList] at h
    cases hm : materializeFor disk s d.name with
    | none => rw [hm] at h; simp at h
    | some c =>
      rw [hm] at h
      cases ht : materializeList disk s t with
      | none => rw [ht] at h; simp at h
      | some L' =>
        rw [ht] at h
        simp only [Option.some.injEq] at h
        subst h
        rcases List.mem_cons.mp hp with h' | h'
        · subst h'; exact ⟨List.mem_cons_self _ _, hm⟩
        · obtain ⟨h1, h2⟩ := ih L' ht h'
          exact ⟨List.mem_cons_of_mem _ h1, h2⟩

theorem sortedDescCtxs_pairwise (s : Suite) :
    s.sortedDescCtxs.Pairwise fun x y => y.priority ≤ x.priority := by
  have hs : s.sorted_contexts.Pairwise ctxLE :=
    List.sorted_insertionSort ctxLE (s.contexts.map Prod.snd)
  rw [Suite.sortedDescCtxs, List.pairwise_reverse]
  exact hs

theorem mem_sortedDescCtxs (s : Suite) (d : ContextData) :
    d ∈ s.sortedDescCtxs ↔ d ∈ s.contexts.map Prod.snd := by
  rw [Suite.sortedDescCtxs, List.mem_reverse]
  exact (List.perm_insertionSort ctxLE (s.contexts.map Prod.snd)).mem_iff

/-- Under `WF`, a claim emitted by entry `d` reads back `d`'s own priority
through the current `contexts` dict. -/
theorem claimPriority_eq (s : Suite) (hWF : s.WF) (d : ContextData)
    (hd : d ∈ s.contexts.map Prod.snd) (c : RContext) (rt : ResolvedTool)
    (hrt : rt ∈ claimsOf d c) : claimPriority s rt = d.priority := by
  obtain ⟨p, hp, rfl⟩ := List.mem_map.mp hd
  have hname : p.2.name = p.1 := hWF.1 p hp
  have hmem : (p.2.name, p.2) ∈ s.contexts := by
    rw [hname]; exact hp
  have hlk : alookup s.contexts p.2.name = some p.2 :=
    alookup_of_mem_nodup _ _ _ hWF.2 hmem
  have hcn := (mem_claimsOf hrt).1
  rw [claimPriority, hcn, hlk]
  rfl

/-- The claim stream is emitted in weakly descending order of the priority of
the generating context entry. -/
theorem streamOf_pairwise (disk : Disk) (s : Suite) (hWF : s.WF)
    (L : List (ContextData × RContext)) (h : s.materializedCtxs disk = some L) :
    (streamOf L).Pairwise fun x y =>
      claimPriority s y ≤ claimPriority s x := by
  have hfst : L.map Prod.fst = s.sortedDescCtxs :=
    materializeList_fst disk s _ L h
  have hLpair : L.Pairwise fun p q => q.1.priority ≤ p.1.priority := by
    have := sortedDescCtxs_pairwise s
    rw [← hfst, List.pairwise_map] at this
    exact this
  have hmem : ∀ p ∈ L, ∀ rt ∈ claimsOf p.1 p.2,
      claimPriority s rt = p.1.priority := by
    intro p hp rt hrt
    have hd : p.1 ∈ s.contexts.map Prod.snd := by
      rw [← mem_sortedDescCtxs, ← hfst]
      exact List.mem_map.mpr ⟨p, hp, rfl⟩
    exact claimPriority_eq s hWF p.1 hd p.2 rt hrt
  have hflat : streamOf L = (L.map fun p => claimsOf p.1 p.2).flatten := rfl
  rw [hflat, List.pairwise_flatten]
  constructor
  · intro l' hl'
    obtain ⟨p, hp, rfl⟩ := List.mem_map.mp hl'
    apply List.pairwise_of_forall_mem_list
    intro x hx y hy
    rw [hmem p hp x hx, hmem p hp y hy]
  · rw [List.pairwise_map]
    exact hLpair.imp_of_mem fun {p q} hp hq hle => fun x hx y hy => by
      rw [hmem p hp x hx, hmem q hq y hy]; exact hle

/-! ### Winner and conflict provenance -/

theorem computeTables_inv (disk : Disk) (s : Suite) (tb : ToolTables)
    (h : computeTables disk s = some tb) :
    ∃ L, s.materializedCtxs disk = some L ∧
      tb = tablesOfStream (streamOf L) := by
  cases hm : s.materializedCtxs disk with
  | none => rw [computeTables, hm] at h; simp at h
  | some L =>
    refine ⟨L, rfl, ?_⟩
    have := computeTables_eq_stream disk s L hm
    rw [h] at this
    exact Option.some.inj this

/-- Under `WF`, a uniquely-keyed dict determines the entry of a key. -/
theorem mem_unique_of_nodup {β : Type} (l : List (String × β)) (k : String)
    (v1 v2 : β) (hnd : (l.map Prod.fst).Nodup) (h1 : (k, v1) ∈ l)
    (h2 : (k, v2) ∈ l) : v1 = v2 := by
  have e1 := alookup_of_mem_nodup l k v1 hnd h1
  have e2 := alookup_of_mem_nodup l k v2 hnd h2
  rw [e1] at e2
  exact Option.some.injEq .. ▸ e2.symm ▸ rfl

/-- An entry of the suite together with its materialized context occurs in
the materialized processing list. -/
theorem entry_mem_materialized (disk : Disk) (s : Suite) (hWF : s.WF)
    (L : List (ContextData × RContext)) (h : s.materializedCtxs disk = some L)
    (k : String) (d : ContextData) (c : RContext) (hk : (k, d) ∈ s.contexts)
    (hc : materializeFor disk s k = some c) : (d, c) ∈ L := by
  have hname : d.name = k := hWF.1 (k, d) hk
  have hfst : L.map Prod.fst = s.sortedDescCtxs :=
    materializeList_fst disk s _ L h
  have hd : d ∈ L.map Prod.fst := by
    rw [hfst, mem_sortedDescCtxs]
    exact List.mem_map.mpr ⟨(k, d), hk, rfl⟩
  obtain ⟨p, hp, hpd⟩ := List.mem_map.mp hd
  obtain ⟨-, hmat⟩ := materializeList_mem disk s _ L h p hp
  rw [hpd, hname, hc] at hmat
  injection hmat with h'
  have hpe : p = (d, c) := by
    obtain ⟨p1, p2⟩ := p
    dsimp only at hpd h'
    rw [hpd, h']
  rw [← hpe]
  exact hp

/-- Conversely, every element of the materialized processing list is an
entry of the suite (keyed, under `WF`, by its own stored name). -/
theorem materialized_mem_entry (disk : Disk) (s : Suite) (hWF : s.WF)
    (L : List (ContextData × RContext)) (h : s.materializedCtxs disk = some L)
    (p : ContextData × RContext) (hp : p ∈ L) :
    (p.1.name, p.1) ∈ s.contexts ∧
      materializeFor disk s p.1.name = some p.2 := by
  obtain ⟨hmem, hmat⟩ := materializeList_mem disk s _ L h p hp
  rw [mem_sortedDescCtxs] at hmem
  obtain ⟨q, hq, hqd⟩ := List.mem_map.mp hmem
  have hname : p.1.name = q.1 := by rw [← hqd]; exact hWF.1 q hq
  constructor
  · rw [hname, ← hqd]
    exact hq
  · exact hmat

/-- Core resolution property: when entry `(kA, dA)` exposes alias `a` and
every other exposing entry has strictly lower priority, `dA`'s claim wins
the alias; and every strictly-lower-priority exposing entry `(kB, dB)` shows
up in the alias's conflict list.  (Proved from the per-alias stream
characterization and the descending-priority processing order.) -/
theorem winner_max_aux (disk : Disk) (s : Suite) (tb : ToolTables)
    (hWF : s.WF) (hct : computeTables disk s = some tb)
    (kA : String) (dA : ContextData) (ctxA : RContext) (a : String)
    (hA : (kA, dA) ∈ s.contexts) (hmA : materializeFor disk s kA = some ctxA)
    (heA : exposesAlias dA ctxA a)
    (hmax : ∀ p ∈ s.contexts, ∀ c', materializeFor disk s p.1 = some c' →
      exposesAlias p.2 c' a → p.1 ≠ kA → p.2.priority < dA.priority) :
    (∃ rt, alookup tb.tools a = some rt ∧ rt.context_name = kA) ∧
    (∀ kB dB ctxB, (kB, dB) ∈ s.contexts →
      materializeFor disk s kB = some ctxB → exposesAlias dB ctxB a →
      dB.priority < dA.priority →
      ∃ l rt, alookup tb.tool_conflicts a = some l ∧ rt ∈ l ∧
        rt.context_name = kB) := by
  obtain ⟨L, hL, rfl⟩ := computeTables_inv disk s tb hct
  obtain ⟨spec1, spec2⟩ := tablesOfStream_spec (streamOf L) a
  have hnameA : dA.name = kA := hWF.1 (kA, dA) hA
  have hAL : (dA, ctxA) ∈ L :=
    entry_mem_materialized disk s hWF L hL kA dA ctxA hA hmA
  obtain ⟨rtA, hrtA, hrtAa⟩ := heA
  have hrtA_stream : rtA ∈ streamOf L :=
    List.mem_flatMap.mpr ⟨(dA, ctxA), hAL, hrtA⟩
  have hrtA_filter : rtA ∈ filterAlias (streamOf L) a := by
    rw [filterAlias, List.mem_filter]
    exact ⟨hrtA_stream, by simp [hrtAa]⟩
  have hpairs : (filterAlias (streamOf L) a).Pairwise fun x y =>
      claimPriority s y ≤ claimPriority s x :=
    (streamOf_pairwise disk s hWF L hL).sublist (List.filter_sublist _)
  have hprioA : claimPriority s rtA = dA.priority := by
    apply claimPriority_eq s hWF dA _ ctxA rtA hrtA
    exact List.mem_map.mpr ⟨(kA, dA), hA, rfl⟩
  -- the filtered stream is nonempty; name its head
  obtain ⟨w, rest, hw⟩ : ∃ w rest,
      filterAlias (streamOf L) a = w :: rest := by
    cases hfl : filterAlias (streamOf L) a with
    | nil => rw [hfl] at hrtA_filter; simp at hrtA_filter
    | cons w rest => exact ⟨w, rest, rfl⟩
  -- provenance of any element of the filtered stream
  have hprov : ∀ rt ∈ filterAlias (streamOf L) a,
      ∃ k' d' c', (k', d') ∈ s.contexts ∧
        materializeFor disk s k' = some c' ∧ exposesAlias d' c' a ∧
        rt.context_name = k' ∧ claimPriority s rt = d'.priority := by
    intro rt hrt
    have hrt_stream : rt ∈ streamOf L := by
      rw [filterAlias, List.mem_filter] at hrt
      exact hrt.1
    have hrt_a : rt.tool_alias = a := by
      rw [filterAlias, List.mem_filter] at hrt
      simpa using hrt.2
    obtain ⟨p, hp, hpcl⟩ := mem_streamOf hrt_stream
    obtain ⟨hpent, hpmat⟩ := materialized_mem_entry disk s hWF L hL p hp
    refine ⟨p.1.name, p.1, p.2, hpent, hpmat, ⟨rt, hpcl, hrt_a⟩,
      (mem_claimsOf hpcl).1, ?_⟩
    apply claimPriority_eq s hWF p.1 _ p.2 rt hpcl
    exact List.mem_map.mpr ⟨(p.1.name, p.1), hpent, rfl⟩
  -- the head's priority dominates every filtered claim's priority
  have hdom : ∀ rt ∈ filterAlias (streamOf L) a,
      claimPriority s rt ≤ claimPriority s w := by
    intro rt hrt
    rw [hw] at hrt
    rcases List.mem_cons.mp hrt with h' | h'
    · rw [h']
    · rw [hw] at hpairs
      exact List.rel_of_pairwise_cons hpairs h'
  -- the head comes from entry A
  have hwA : w.context_name = kA ∧ claimPriority s w = dA.priority := by
    obtain ⟨k', d', c', hent, hmat, hexp, hcn, hpr⟩ :=
      hprov w (hw ▸ List.mem_cons_self w rest)
    by_cases hk : k' = kA
    · subst hk
      have : d' = dA := mem_unique_of_nodup s.contexts k' d' dA hWF.2 hent hA
      subst this
      exact ⟨hcn, hpr⟩
    · exfalso
      have hlt : d'.priority < dA.priority := hmax (k', d') hent c' hmat hexp hk
      have hge : dA.priority ≤ claimPriority s w := by
        rw [← hprioA]
        exact hdom rtA hrtA_filter
      rw [hpr] at hge
      omega
  constructor
  · refine ⟨w, ?_, hwA.1⟩
    rw [spec1, hw]
    rfl
  · intro kB dB ctxB hB hmB heB hlt
    have hnameB : dB.name = kB := hWF.1 (kB, dB) hB
    have hBL : (dB, ctxB) ∈ L :=
      entry_mem_materialized disk s hWF L hL kB dB ctxB hB hmB
    obtain ⟨rtB, hrtB, hrtBa⟩ := heB
    have hrtB_filter : rtB ∈ filterAlias (streamOf L) a := by
      rw [filterAlias, List.mem_filter]
      exact ⟨List.mem_flatMap.mpr ⟨(dB, ctxB), hBL, hrtB⟩, by simp [hrtBa]⟩
    have hprioB : claimPriority s rtB = dB.priority := by
      apply claimPriority_eq s hWF dB _ ctxB rtB hrtB
      exact List.mem_map.mpr ⟨(kB, dB), hB, rfl⟩
    have hrtB_ne_w : rtB ≠ w := by
      intro he
      rw [← he, hprioB] at hwA
      omega
    have hrtB_rest : rtB ∈ rest := by
      rw [hw] at hrtB_filter
      rcases List.mem_cons.mp hrtB_filter with h' | h'
      · exact absurd h' hrtB_ne_w
      · exact h'
    refine ⟨rest, rtB, ?_, hrtB_rest, (mem_claimsOf hrtB).1.trans hnameB⟩
    rw [spec2, hw]
    have hlen : 2 ≤ (w :: rest).length := by
      cases rest with
      | nil => simp at hrtB_rest
      | cons z zs => simp
    rw [if_pos hlen]
    rfl

/-- Every element of the per-alias filtered claim stream originates from a
current context entry of the suite. -/
theorem filtered_provenance (disk : Disk) (s : Suite) (hWF : s.WF)
    (L : List (ContextData × RContext)) (hL : s.materializedCtxs disk = some L)
    (a : String) (rt : ResolvedTool) (hrt : rt ∈ filterAlias (streamOf L) a) :
    ∃ k' d' c', (k', d') ∈ s.contexts ∧
      materializeFor disk s k' = some c' ∧ rt ∈ claimsOf d' c' ∧
      rt.tool_alias = a ∧ rt.context_name = k' ∧
      claimPriority s rt = d'.priority := by
  have hrt_stream : rt ∈ streamOf L := by
    rw [filterAlias, List.mem_filter] at hrt
    exact hrt.1
  have hrt_a : rt.tool_alias = a := by
    rw [filterAlias, List.mem_filter] at hrt
    simpa using hrt.2
  obtain ⟨p, hp, hpcl⟩ := mem_streamOf hrt_stream
  obtain ⟨hpent, hpmat⟩ := materialized_mem_entry disk s hWF L hL p hp
  refine ⟨p.1.name, p.1, p.2, hpent, hpmat, hpcl, hrt_a,
    (mem_claimsOf hpcl).1, ?_⟩
  apply claimPriority_eq s hWF p.1 _ p.2 rt hpcl
  exact List.mem_map.mpr ⟨(p.1.name, p.1), hpent, rfl⟩

/-- The head of the per-alias filtered claim stream has maximal claim
priority among the alias's claims. -/
theorem filtered_head_max (disk : Disk) (s : Suite) (hWF : s.WF)
    (L : List (ContextData × RContext)) (hL : s.materializedCtxs disk = some L)
    (a : String) (w : ResolvedTool) (rest : List ResolvedTool)
    (hw : filterAlias (streamOf L) a = w :: rest) (rt : ResolvedTool)
    (hrt : rt ∈ filterAlias (streamOf L) a) :
    claimPriority s rt ≤ claimPriority s w := by
  have hpairs : (filterAlias (streamOf L) a).Pairwise fun x y =>
      claimPriority s y ≤ claimPriority s x :=
    (streamOf_pairwise disk s hWF L hL).sublist (List.filter_sublist _)
  rw [hw] at hrt hpairs
  rcases List.mem_cons.mp hrt with h' | h'
  · rw [h']
  · exact List.rel_of_pairwise_cons hpairs h'

/-- When some entry of strictly higher priority exposes alias `a`, no entry
of lower priority can win `a`. -/
theorem winner_not_lower_aux (disk : Disk) (s : Suite) (tb : ToolTables)
    (hWF : s.WF) (hct : computeTables disk s = some tb)
    (kA : String) (dA : ContextData) (ctxA : RContext) (a : String)
    (hA : (kA, dA) ∈ s.contexts) (hmA : materializeFor disk s kA = some ctxA)
    (heA : exposesAlias dA ctxA a)
    (kB : String) (dB : ContextData) (hB : (kB, dB) ∈ s.contexts)
    (hlt : dB.priority < dA.priority) :
    ∀ rt, alookup tb.tools a = some rt → rt.context_name ≠ kB := by
  intro rt hrt hcn
  obtain ⟨L, hL, rfl⟩ := computeTables_inv disk s tb hct
  obtain ⟨spec1, -⟩ := tablesOfStream_spec (streamOf L) a
  rw [spec1] at hrt
  obtain ⟨w, rest, hw⟩ : ∃ w rest,
      filterAlias (streamOf L) a = w :: rest := by
    cases hfl : filterAlias (streamOf L) a with
    | nil => rw [hfl] at hrt; simp at hrt
    | cons w rest => exact ⟨w, rest, rfl⟩
  rw [hw] at hrt
  simp only [List.head?_cons, Option.some.injEq] at hrt
  subst hrt
  -- the winner's priority dominates A's claims, hence is at least dA's
  have hAL : (dA, ctxA) ∈ L :=
    entry_mem_materialized disk s hWF L hL kA dA ctxA hA hmA
  obtain ⟨rtA, hrtA, hrtAa⟩ := heA
  have hrtA_filter : rtA ∈ filterAlias (streamOf L) a := by
    rw [filterAlias, List.mem_filter]
    exact ⟨List.mem_flatMap.mpr ⟨(dA, ctxA), hAL, hrtA⟩, by simp [hrtAa]⟩
  have hprioA : claimPriority s rtA = dA.priority := by
    apply claimPriority_eq s hWF dA _ ctxA rtA hrtA
    exact List.mem_map.mpr ⟨(kA, dA), hA, rfl⟩
  have hge : dA.priority ≤ claimPriority s w := by
    rw [← hprioA]
    exact filtered_head_max disk s hWF L hL a w rest hw rtA hrtA_filter
  -- but the winner allegedly comes from B, of strictly lower priority
  obtain ⟨k', d', c', hent, -, -, -, hcn', hpr⟩ :=
    filtered_provenance disk s hWF L hL a w (hw ▸ List.mem_cons_self w rest)
  rw [hcn] at hcn'
  have hd' : d' = dB := by
    rw [← hcn'] at hent
    exact mem_unique_of_nodup s.contexts kB d' dB hWF.2 hent hB
  rw [hd'] at hpr
  omega

/-! ### Concrete example suites used to settle the claims -/

/-- An empty disk (all example suites hold live contexts). -/
def disk0 : Disk := fun _ => none

/-- A resolved context exposing the single tool `"t"` from variant `1`. -/
def ctxT : RContext := { success := true, tools := [(1, ["t"])] }

/-- A plain context entry with no overrides. -/
def entC1 (nm : String) (pr : Nat) : ContextData :=
  { name := nm, context := some ctxT, tool_aliases := [], hidden_tools := [],
    description := none, priority := pr, pfx := none, sfx := none }

/-- Three contexts `A`, `B`, `C` of priorities 2, 1, 3, all exposing the
alias `"t"`. -/
def suite3 : Suite :=
  { load_path := none,
    contexts := [("A", entC1 "A" 2), ("B", entC1 "B" 1), ("C", entC1 "C" 3)],
    next_priority := 4, tools := none, tool_conflicts := none }

/-- Two contexts `A`, `B` of priorities 2, 1, both exposing the alias
`"t"`. -/
def suite2 : Suite :=
  { load_path := none,
    contexts := [("A", entC1 "A" 2), ("B", entC1 "B" 1)],
    next_priority := 3, tools := none, tool_conflicts := none }

/-! ### Claim C1 -/

/-- The literal statement of claim C1: for every registry and every two
context entries `A`, `B` exposing the same final alias with
`A.priority > B.priority`, the winning table maps the alias to `A`'s
`ResolvedTool` and `B`'s appears in the conflict list. -/
def claimC1Literal : Prop :=
  ∀ (disk : Disk) (s : Suite) (tb : ToolTables), s.WF →
    computeTables disk s = some tb →
    ∀ kA dA kB dB ctxA ctxB a,
      (kA, dA) ∈ s.contexts → (kB, dB) ∈ s.contexts →
      materializeFor disk s kA = some ctxA →
      materializeFor disk s kB = some ctxB →
      exposesAlias dA ctxA a → exposesAlias dB ctxB a →
      dB.priority < dA.priority →
      (∃ rt, alookup tb.tools a = some rt ∧ rt.context_name = kA) ∧
      (∃ l rt, alookup tb.tool_conflicts a = some l ∧ rt ∈ l ∧
        rt.context_name = kB)

/-- C1, counterexample: with three contexts `C > A > B` all exposing alias
`"t"`, the pair `(A, B)` satisfies the claim's hypotheses but `A` is not the
winner (`C` is), so the claim as literally stated is false. -/
theorem claim1_counterexample : ¬ claimC1Literal := by
  intro h
  have h2 := h disk0 suite3
    { tools := [("t", ⟨"t", "t", "C", 1⟩)],
      tool_conflicts := [("t", [⟨"t", "t", "A", 1⟩, ⟨"t", "t", "B", 1⟩])] }
    (by decide) (by decide)
    "A" (entC1 "A" 2) "B" (entC1 "B" 1) ctxT ctxT "t"
    (by decide) (by decide) (by decide) (by decide) (by decide) (by decide)
    (by decide)
  obtain ⟨⟨rt, hrt, hcn⟩, -⟩ := h2
  have hval : alookup
      [("t", (⟨"t", "t", "C", 1⟩ : ResolvedTool))] "t" =
      some ⟨"t", "t", "C", 1⟩ := by decide
  rw [hval] at hrt
  injection hrt with he
  rw [← he] at hcn
  exact absurd hcn (by decide)

/-- C1 (amended): for entries `A`, `B` exposing the same final alias with
`p_A > p_B`, (i) under the additional hypothesis — forced by the
counterexample — that `A`'s entry also has strictly higher priority than
every OTHER entry exposing the alias, `A`'s tool wins the alias and `B`'s
tool appears in the conflict list; and (ii) with only `p_A > p_B`, `B`'s
tool is never the winner — unconditionally, even when some third entry of
higher priority than `A` also exposes the alias. -/
theorem claim1_theorem (disk : Disk) (s : Suite) (tb : ToolTables)
    (hWF : s.WF) (hct : computeTables disk s = some tb)
    (kA kB a : String) (dA dB : ContextData) (ctxA ctxB : RContext)
    (hA : (kA, dA) ∈ s.contexts) (hB : (kB, dB) ∈ s.contexts)
    (hmA : materializeFor disk s kA = some ctxA)
    (hmB : materializeFor disk s kB = some ctxB)
    (heA : exposesAlias dA ctxA a) (heB : exposesAlias dB ctxB a)
    (hlt : dB.priority < dA.priority) :
    ((∀ p ∈ s.contexts, ∀ c', materializeFor disk s p.1 = some c' →
        exposesAlias p.2 c' a → p.1 ≠ kA → p.2.priority < dA.priority) →
      (∃ rt, alookup tb.tools a = some rt ∧ rt.context_name = kA) ∧
      (∃ l rt, alookup tb.tool_conflicts a = some l ∧ rt ∈ l ∧
        rt.context_name = kB)) ∧
    (∀ rt, alookup tb.tools a = some rt → rt.context_name ≠ kB) := by
  constructor
  · intro hmax
    obtain ⟨h1, h2⟩ := winner_max_aux disk s tb hWF hct kA dA ctxA a hA hmA
      heA hmax
    exact ⟨h1, h2 kB dB ctxB hB hmB heB hlt⟩
  · exact winner_not_lower_aux disk s tb hWF hct kA dA ctxA a hA hmA heA
      kB dB hB hlt

/-- C1, witness: (i) the amended theorem applied to the concrete
two-context suite `A (priority 2) > B (priority 1)`, both exposing `"t"`:
`A` wins; (ii) its unconditional clause applied to the three-context suite
`C (3) > A (2) > B (1)` — where `A` is NOT the top exposer — `B`'s tool is
still not the winner of `"t"`. -/
theorem claim1_witness :
    (∃ rt, alookup
      [("t", (⟨"t", "t", "A", 1⟩ : ResolvedTool))] "t" = some rt ∧
      rt.context_name = "A") ∧
    (∀ rt, alookup
      [("t", (⟨"t", "t", "C", 1⟩ : ResolvedTool))] "t" = some rt →
      rt.context_name ≠ "B") := by
  constructor
  · have h := claim1_theorem disk0 suite2
      { tools := [("t", ⟨"t", "t", "A", 1⟩)],
        tool_conflicts := [("t", [⟨"t", "t", "B", 1⟩])] }
      (by decide) (by decide) "A" "B" "t"
      (entC1 "A" 2) (entC1 "B" 1) ctxT ctxT
      (by decide) (by decide) (by decide) (by decide) (by decide)
      (by decide) (by decide)
    refine (h.1 ?_).1
    intro p hp c' hmat hexp hne
    rcases List.mem_cons.mp hp with h' | h'
    · exact absurd (by rw [h']) hne
    · rcases List.mem_cons.mp h' with h'' | h''
      · rw [h'']
        decide
      · simp at h''
  · have h := claim1_theorem disk0 suite3
      { tools := [("t", ⟨"t", "t", "C", 1⟩)],
        tool_conflicts := [("t", [⟨"t", "t", "A", 1⟩, ⟨"t", "t", "B", 1⟩])] }
      (by decide) (by decide) "A" "B" "t"
      (entC1 "A" 2) (entC1 "B" 1) ctxT ctxT
      (by decide) (by decide) (by decide) (by decide) (by decide)
      (by decide) (by decide)
    exact h.2

/-! ### Claim C2 -/

/-- C2: code bug, exhibited.  `Alias.run` calls `parse_known_args()` with no
argument, so it parses the live process's `sys.argv` and never reads the
stored `self.cli_args`.  With `cli_args` fixed at
`["++command", "echo", "hi"]`: under process argv `["other"]` the command
executed is `["t", "other"]` (the wrapped tool plus the process arguments,
not `echo hi`), while under process argv equal to the cli_args it is
`["echo", "hi"]` — the same `Alias` value issues two different shell calls,
so parsing and command construction are a function of the process argv, not
of the `cli_args` supplied at construction. -/
theorem claim2_theorem :
    Alias.run { context_name := "c", tool_name := "t",
                cli_args := ["++command", "echo", "hi"] } ["other"] true =
      .ok { command := some ["t", "other"], stdin := false, rcfile := none,
            norc := false, promptOverride := none } ∧
    Alias.run { context_name := "c", tool_name := "t",
                cli_args := ["++command", "echo", "hi"] }
        ["++command", "echo", "hi"] true =
      .ok { command := some ["echo", "hi"], stdin := false, rcfile := none,
            norc := false, promptOverride := none } :=
  ⟨rfl, rfl⟩

/-! ### Claim C9 -/

/-- The command component of the shell call issued by a run of the invoker
(`none` when the run fails at dialect parsing). -/
def runCommandOf (a : Alias) (sysArgv : List String) (stdinReady : Bool) :
    Option (Option (List String)) :=
  (Alias.run a sysArgv stdinReady).toOption.map ShellCall.command

/-- C9: the command executed by `Alias.run` follows the precedence
explicit inline command > interactive > default: when the parsed dialect
options carry a (non-empty) inline command, exactly that command is issued,
ignoring the wrapped tool's name and the remaining arguments; when only
interactive is requested, no explicit command is passed; otherwise the tool
name followed by the unconsumed arguments is issued. -/
theorem claim9_theorem (a : Alias) (sysArgv : List String) (stdinReady : Bool)
    (opts : AliasOpts) (tool_args : List String)
    (hp : parseKnownArgs sysArgv = .ok (opts, tool_args)) :
    runCommandOf a sysArgv stdinReady =
      some (if cmdTruthy opts.command then opts.command
            else if opts.interactive then none
            else some (a.tool_name :: tool_args)) := by
  unfold runCommandOf Alias.run
  rw [hp]
  by_cases hs : opts.stdin = true ∧ stdinReady = false <;>
    by_cases h1 : cmdTruthy opts.command <;>
      by_cases h2 : opts.interactive <;>
        simp [hs, h1, h2, Except.toOption]

/-- C9, witness: the scenario `++command echo hi` preceded by a stray tool
argument — the inline command `echo hi` is executed, the wrapped tool name
`t` and the unconsumed argument `toolarg` are ignored. -/
theorem claim9_witness :
    runCommandOf { context_name := "c", tool_name := "t", cli_args := [] }
        ["toolarg", "++command", "echo", "hi"] true =
      some (if cmdTruthy (some ["echo", "hi"]) then some ["echo", "hi"]
            else if false then none else some ("t" :: ["toolarg"])) :=
  claim9_theorem { context_name := "c", tool_name := "t", cli_args := [] }
    ["toolarg", "++command", "echo", "hi"] true
    { interactive := false, command := some ["echo", "hi"], rcfile := none,
      norc := false, stdin := false } ["toolarg"] rfl

/-! ### Claim C3 -/

/-- A context entry with tool `"t"` already aliased to `"a"`. -/
def entC3 : ContextData :=
  { name := "c", context := some ctxT, tool_aliases := [("t", "a")],
    hidden_tools := [], description := none, priority := 1, pfx := none,
    sfx := none }

/-- A suite holding `entC3` under key `"c"`. -/
def suiteC3 : Suite :=
  { load_path := none, contexts := [("c", entC3)], next_priority := 2,
    tools := none, tool_conflicts := none }

/-- The literal recording half of claim C3: whenever the entry's alias
mapping is NOT already in the requested state `toolName ↦ alias`,
`alias_tool` records the mapping `toolName ↦ alias`. -/
def claimC3Literal : Prop :=
  ∀ (s : Suite) (cn tn al : String) (d : ContextData) (s' : Suite),
    alookup s.contexts cn = some d →
    Suite.alias_tool s cn tn al = .ok s' →
    alookup d.tool_aliases tn ≠ some al →
    ∃ d', alookup s'.contexts cn = some d' ∧
      alookup d'.tool_aliases tn = some al

/-- C3, counterexample: with tool `"t"` already aliased to `"a"`, the call
`alias_tool("c", "t", "b")` is NOT in the requested state (`"t" ↦ "b"`),
yet the code silently no-ops (the guard tests only key membership), leaving
`"t" ↦ "a"` — the mapping `"t" ↦ "b"` is never recorded. -/
theorem claim3_counterexample : ¬ claimC3Literal := by
  intro h
  obtain ⟨d', hd', hal⟩ :=
    h suiteC3 "c" "t" "b" entC3 suiteC3 (by decide) (by decide) (by decide)
  rw [show alookup suiteC3.contexts "c" = some entC3 from by decide] at hd'
  injection hd' with he
  rw [← he] at hal
  exact absurd hal (by decide)

/-- C3 (amended): `alias_tool(cn, tn, al)` is a no-op — registry and
memoized-resolution cache returned exactly as they were — precisely when
`tn` already has SOME alias registered in the entry (whatever its value; in
particular a request to re-alias to a different name is silently ignored);
otherwise it records `tn ↦ al` and invalidates the cache.  Dually,
`dealias_tool(cn, tn)` on a tool with no registered alias is a no-op that
triggers no recomputation, and otherwise removes the mapping and invalidates
the cache. -/
theorem claim3_theorem (s : Suite) (cn tn al : String) (d : ContextData)
    (hd : alookup s.contexts cn = some d) :
    ((alookup d.tool_aliases tn).isSome →
      Suite.alias_tool s cn tn al = .ok s) ∧
    ((alookup d.tool_aliases tn).isSome = false →
      Suite.alias_tool s cn tn al = .ok
        { s with
          contexts := asetKey s.contexts cn
            ({ d with tool_aliases := d.tool_aliases ++ [(tn, al)] }),
          tools := none, tool_conflicts := none }) ∧
    ((alookup d.tool_aliases tn).isSome = false →
      Suite.dealias_tool s cn tn = .ok s) ∧
    ((alookup d.tool_aliases tn).isSome →
      Suite.dealias_tool s cn tn = .ok
        { s with
          contexts := asetKey s.contexts cn
            ({ d with tool_aliases := adelKey d.tool_aliases tn }),
          tools := none, tool_conflicts := none }) := by
  have hctx : s.ctxData cn = .ok d := by
    unfold Suite.ctxData
    rw [hd]
  refine ⟨fun h1 => ?_, fun h1 => ?_, fun h1 => ?_, fun h1 => ?_⟩ <;>
    · simp only [Suite.alias_tool, Suite.dealias_tool]
      rw [hctx]
      simp [h1]

/-- C3, witness: on the concrete suite with `"t" ↦ "a"` registered,
`alias_tool("c", "t", "b")` returns the suite unchanged, and
`dealias_tool("c", "t")` removes the mapping and flushes the cache. -/
theorem claim3_witness :
    Suite.alias_tool suiteC3 "c" "t" "b" = .ok suiteC3 ∧
    Suite.dealias_tool suiteC3 "c" "t" = .ok
      { suiteC3 with
        contexts := asetKey suiteC3.contexts "c"
          ({ entC3 with tool_aliases := adelKey entC3.tool_aliases "t" }),
        tools := none, tool_conflicts := none } := by
  have h := claim3_theorem suiteC3 "c" "t" "b" entC3 (by decide)
  exact ⟨h.1 (by decide), h.2.2.2 (by decide)⟩

/-! ### Claim C8 -/

/-- C8: `add_context(name, context, description)` fails with the
duplicate-name error when `name` is already present, fails with the
unresolved-context error when the supplied context is not successfully
resolved, and on success appends an entry carrying the next priority value,
empty hidden-tool and alias sets and no prefix or suffix, advancing the
priority clock and invalidating the cache.  Both failures are raised before
any state change: in this embedding an error result carries no mutated
suite, mirroring that the Python method raises before its single assignment
to `self.contexts` (and before `_next_priority` is consumed), so the
registry is left exactly as it was. -/
theorem claim8_theorem (s : Suite) (name : String) (context : RContext)
    (description : Option String) :
    ((alookup s.contexts name).isSome →
      s.add_context name context description = .error .duplicateName) ∧
    ((alookup s.contexts name).isSome = false → context.success = false →
      s.add_context name context description = .error .unresolvedContext) ∧
    ((alookup s.contexts name).isSome = false → context.success →
      s.add_context name context description = .ok
        { s with
          contexts := s.contexts ++
            [(name, { name := name, context := some context,
                      tool_aliases := [], hidden_tools := [],
                      description := description,
                      priority := s.next_priority, pfx := none,
                      sfx := none })],
          next_priority := s.next_priority + 1,
          tools := none, tool_conflicts := none }) := by
  refine ⟨fun h1 => ?_, fun h1 h2 => ?_, fun h1 h2 => ?_⟩ <;>
    simp [Suite.add_context, h1]
  · simp [h2]
  · simp [h2]

/-- C8, witness: on the concrete two-context suite, adding `"A"` again fails
with the duplicate-name error, adding a fresh name with an unresolved
context fails with the unresolved-context error, and adding a fresh name
with a resolved context appends the expected entry. -/
theorem claim8_witness :
    Suite.add_context suite2 "A" ctxT none = .error .duplicateName ∧
    Suite.add_context suite2 "N" { success := false, tools := [] } none =
      .error .unresolvedContext ∧
    Suite.add_context suite2 "N" ctxT none = .ok
      { suite2 with
        contexts := suite2.contexts ++
          [("N", { name := "N", context := some ctxT, tool_aliases := [],
                   hidden_tools := [], description := none,
                   priority := suite2.next_priority, pfx := none,
                   sfx := none })],
        next_priority := suite2.next_priority + 1,
        tools := none, tool_conflicts := none } :=
  ⟨(claim8_theorem suite2 "A" ctxT none).1 (by decide),
   (claim8_theorem suite2 "N" { success := false, tools := [] } none).2.1
     (by decide) (by decide),
   (claim8_theorem suite2 "N" ctxT none).2.2 (by decide) (by decide)⟩

/-! ### Claim C10 -/

/-- C10: accessing a context by name is an idempotent lazy materialization:
a live context is returned with the suite unchanged; a missing live context
with no load path hits the assertion; otherwise the context is read from
`<load_path>/contexts/<name>.rxt`, cached in the entry, and every subsequent
access returns the same cached object with no disk read (the second access
is independent of the disk contents). -/
theorem claim10_theorem (disk : Disk) (s : Suite) (name : String)
    (d : ContextData) (hd : alookup s.contexts name = some d) :
    (∀ c, d.context = some c → s.contextGet disk name = .ok (c, s)) ∧
    (d.context = none → s.load_path = none →
      s.contextGet disk name = .error .assertionFailed) ∧
    (∀ p c, d.context = none → s.load_path = some p →
      disk [p, "contexts", name ++ ".rxt"] = some c →
      ∃ s', s.contextGet disk name = .ok (c, s') ∧
        alookup s'.contexts name = some ({ d with context := some c }) ∧
        ∀ disk2, s'.contextGet disk2 name = .ok (c, s')) := by
  have hctx : s.ctxData name = .ok d := by
    unfold Suite.ctxData
    rw [hd]
  refine ⟨fun c hc => ?_, fun hc hlp => ?_, fun p c hc hlp hdisk => ?_⟩
  · simp [Suite.contextGet, hctx, hc]
  · simp [Suite.contextGet, hctx, hc, hlp]
  · refine ⟨{ s with
        contexts := asetKey s.contexts name ({ d with context := some c }) },
      ?_, ?_, ?_⟩
    · simp [Suite.contextGet, hctx, hc, hlp, hdisk]
    · exact alookup_asetKey_self s.contexts name _
    · intro disk2
      have hctx2 : Suite.ctxData
          { s with
            contexts := asetKey s.contexts name
              ({ d with context := some c }) } name =
          .ok ({ d with context := some c }) := by
        unfold Suite.ctxData
        rw [alookup_asetKey_self]
      simp [Suite.contextGet, hctx2]

/-- A not-yet-materialized context entry (as produced by loading a suite
from disk). -/
def entL : ContextData :=
  { name := "c", context := none, tool_aliases := [], hidden_tools := [],
    description := none, priority := 1, pfx := none, sfx := none }

/-- A suite loaded from `/s` whose entry `"c"` holds no live context. -/
def suiteL : Suite :=
  { load_path := some "/s", contexts := [("c", entL)], next_priority := 2,
    tools := none, tool_conflicts := none }

/-- A disk holding the snapshot `/s/contexts/c.rxt`. -/
def diskL : Disk :=
  fun q => if q = ["/s", "contexts", "c.rxt"] then some ctxT else none

/-- C10, witness: the first access on the loaded suite reads the snapshot
from `/s/contexts/c.rxt`, caches it, and the second access returns the
cached context even from an empty disk. -/
theorem claim10_witness :
    ∃ s', Suite.contextGet diskL suiteL "c" = .ok (ctxT, s') ∧
      alookup s'.contexts "c" = some ({ entL with context := some ctxT }) ∧
      ∀ disk2, Suite.contextGet disk2 s' "c" = .ok (ctxT, s') :=
  (claim10_theorem diskL suiteL "c" entL (by decide)).2.2 "/s" ctxT
    (by decide) (by decide) (by decide)

/-! ### Claim C5 -/

/-- The priority-clock invariant of a suite: every stored priority is below
the clock `next_priority`, and stored priorities are pairwise distinct. -/
def PriorityInv (s : Suite) : Prop :=
  (∀ p ∈ s.contexts, p.2.priority < s.next_priority) ∧
  (s.contexts.map fun p => p.2.priority).Nodup

instance (s : Suite) : Decidable (PriorityInv s) := by
  unfold PriorityInv; infer_instance

/-- A mutation on `s` producing `s'` assigned entry `name` a fresh priority:
the entry now carries the old clock value, strictly above every priority
previously stored anywhere in the registry, and the clock advanced past
it. -/
def FreshAssign (s s' : Suite) (name : String) : Prop :=
  ∃ d', alookup s'.contexts name = some d' ∧
    d'.priority = s.next_priority ∧
    (∀ p ∈ s.contexts, p.2.priority < d'.priority) ∧
    s'.next_priority = s.next_priority + 1

theorem nodup_prio_asetKey (l : List (String × ContextData)) (k : String)
    (v : ContextData) (hb : ∀ p ∈ l, p.2.priority < v.priority)
    (hnd : (l.map fun p => p.2.priority).Nodup) :
    ((asetKey l k v).map fun p => p.2.priority).Nodup := by
  induction l with
  | nil => simp [asetKey]
  | cons q t ih =>
    obtain ⟨k0, v0⟩ := q
    simp only [List.map_cons, List.nodup_cons] at hnd
    by_cases h0 : k0 = k
    · simp only [asetKey, if_pos h0, List.map_cons, List.nodup_cons]
      refine ⟨?_, hnd.2⟩
      intro hmem
      obtain ⟨p, hp, hpe⟩ := List.mem_map.mp hmem
      have := hb p (List.mem_cons_of_mem _ hp)
      omega
    · simp only [asetKey, if_neg h0, List.map_cons, List.nodup_cons]
      refine ⟨?_, ih (fun p hp => hb p (List.mem_cons_of_mem _ hp)) hnd.2⟩
      intro hmem
      obtain ⟨p, hp, hpe⟩ := List.mem_map.mp hmem
      rcases mem_asetKey t k v p hp with h' | h'
      · exact hnd.1 (List.mem_map.mpr ⟨p, h', hpe⟩)
      · have hv0 := hb (k0, v0) (List.mem_cons_self _ _)
        rw [h'] at hpe
        simp only at hpe hv0
        omega

theorem bound_asetKey (l : List (String × ContextData)) (k : String)
    (v : ContextData) (n : Nat) (hb : ∀ p ∈ l, p.2.priority < n)
    (hv : v.priority < n) :
    ∀ p ∈ asetKey l k v, p.2.priority < n := by
  intro p hp
  rcases mem_asetKey l k v p hp with h' | h'
  · exact hb p h'
  · rw [h']; exact hv

/-- The common shape of `set_context_prefix` / `set_context_suffix` /
`bump_context` successes: the entry updated via `asetKey` with priority
re-assigned to the clock, the clock advanced, the cache flushed. -/
theorem fresh_of_asetKey (s : Suite) (name : String) (d d' : ContextData)
    (_hd : alookup s.contexts name = some d) (hInv : PriorityInv s)
    (hprio : d'.priority = s.next_priority) :
    FreshAssign s
      { s with
        contexts := asetKey s.contexts name d',
        next_priority := s.next_priority + 1,
        tools := none, tool_conflicts := none } name ∧
    PriorityInv
      { s with
        contexts := asetKey s.contexts name d',
        next_priority := s.next_priority + 1,
        tools := none, tool_conflicts := none } := by
  constructor
  · exact ⟨d', alookup_asetKey_self _ _ _, hprio,
      fun p hp => hprio ▸ hInv.1 p hp, rfl⟩
  · constructor
    · apply bound_asetKey s.contexts name d' (s.next_priority + 1)
      · intro p hp
        have := hInv.1 p hp
        omega
      · rw [hprio]
        omega
    · apply nodup_prio_asetKey
      · intro p hp
        rw [hprio]
        exact hInv.1 p hp
      · exact hInv.2

/-- C5: priorities are unique and strictly increasing in assignment order:
`add_context`, `set_context_prefix`, `set_context_suffix` and `bump_context`
each assign the entry a priority equal to the current clock — strictly
greater than every priority previously stored — and advance the clock, so
the clock bound and pairwise distinctness are preserved; and `from_dict`
sets the clock of a loaded suite to one past the maximum stored priority. -/
theorem claim5_theorem (s : Suite) (hInv : PriorityInv s) :
    (∀ name c desc s', s.add_context name c desc = .ok s' →
      FreshAssign s s' name ∧ PriorityInv s') ∧
    (∀ name p s', s.set_context_pfx name p = .ok s' →
      FreshAssign s s' name ∧ PriorityInv s') ∧
    (∀ name p s', s.set_context_sfx name p = .ok s' →
      FreshAssign s s' name ∧ PriorityInv s') ∧
    (∀ name s', s.bump_context name = .ok s' →
      FreshAssign s s' name ∧ PriorityInv s') ∧
    (∀ ctxs s', Suite.from_dict ctxs = .ok s' →
      ∃ m, maxPriority (ctxs.map fun p => p.2.priority) = some m ∧
        s'.next_priority = m + 1) := by
  refine ⟨?_, ?_, ?_, ?_, ?_⟩
  · intro name c desc s' h
    simp only [Suite.add_context] at h
    by_cases h1 : (alookup s.contexts name).isSome
    · rw [if_pos h1] at h; simp at h
    · rw [if_neg h1] at h
      by_cases h2 : !c.success
      · rw [if_pos h2] at h; simp at h
      · rw [if_neg h2] at h
        injection h with h
        subst h
        constructor
        · refine ⟨⟨name, some c, [], [], desc, s.next_priority, none, none⟩,
            ?_, rfl, fun p hp => hInv.1 p hp, rfl⟩
          rw [alookup_append]
          rw [Option.not_isSome_iff_eq_none.mp h1]
          simp [alookup]
        · constructor
          · intro p hp
            show p.2.priority < s.next_priority + 1
            rcases List.mem_append.mp hp with h' | h'
            · have := hInv.1 p h'
              omega
            · simp only [List.mem_singleton] at h'
              rw [h']
              show s.next_priority < s.next_priority + 1
              omega
          · show ((s.contexts ++
                [(name, (⟨name, some c, [], [], desc, s.next_priority, none,
                    none⟩ : ContextData))]).map fun p => p.2.priority).Nodup
            rw [List.map_append]
            simp only [List.map_cons, List.map_nil]
            rw [List.nodup_append]
            refine ⟨hInv.2, List.nodup_singleton _, ?_⟩
            intro x hx hmem
            obtain ⟨p, hp, hpe⟩ := List.mem_map.mp hx
            have h3 := hInv.1 p hp
            simp only [List.mem_singleton] at hmem
            omega
  · intro name p s' h
    simp only [Suite.set_context_pfx] at h
    cases hc : s.ctxData name with
    | error e => rw [hc] at h; simp at h
    | ok d =>
      rw [hc] at h
      injection h with h
      subst h
      exact fresh_of_asetKey s name d _ (by
        unfold Suite.ctxData at hc
        cases hl : alookup s.contexts name with
        | none => rw [hl] at hc; simp at hc
        | some d0 => rw [hl] at hc; injection hc with hc; rw [hc]) hInv rfl
  · intro name p s' h
    simp only [Suite.set_context_sfx] at h
    cases hc : s.ctxData name with
    | error e => rw [hc] at h; simp at h
    | ok d =>
      rw [hc] at h
      injection h with h
      subst h
      exact fresh_of_asetKey s name d _ (by
        unfold Suite.ctxData at hc
        cases hl : alookup s.contexts name with
        | none => rw [hl] at hc; simp at hc
        | some d0 => rw [hl] at hc; injection hc with hc; rw [hc]) hInv rfl
  · intro name s' h
    simp only [Suite.bump_context] at h
    cases hc : s.ctxData name with
    | error e => rw [hc] at h; simp at h
    | ok d =>
      rw [hc] at h
      injection h with h
      subst h
      exact fresh_of_asetKey s name d _ (by
        unfold Suite.ctxData at hc
        cases hl : alookup s.contexts name with
        | none => rw [hl] at hc; simp at hc
        | some d0 => rw [hl] at hc; injection hc with hc; rw [hc]) hInv rfl
  · intro ctxs s' h
    simp only [Suite.from_dict] at h
    cases hm : maxPriority (ctxs.map fun p => p.2.priority) with
    | none => rw [hm] at h; simp at h
    | some m =>
      rw [hm] at h
      injection h with h
      subst h
      exact ⟨m, rfl, rfl⟩

/-- C5, witness: on the concrete two-context suite (clock 3),
`bump_context("B")` assigns priority 3 to `B`, above `A`'s 2 and the old
`B`'s 1, advances the clock to 4 and preserves the invariant. -/
theorem claim5_witness :
    FreshAssign suite2
      { suite2 with
        contexts := asetKey suite2.contexts "B"
          ({ entC1 "B" 1 with priority := suite2.next_priority }),
        next_priority := suite2.next_priority + 1,
        tools := none, tool_conflicts := none } "B" ∧
    PriorityInv
      { suite2 with
        contexts := asetKey suite2.contexts "B"
          ({ entC1 "B" 1 with priority := suite2.next_priority }),
        next_priority := suite2.next_priority + 1,
        tools := none, tool_conflicts := none } :=
  (claim5_theorem suite2 (by decide)).2.2.2.1 "B" _ (by decide)

/-! ### Claim C6 -/

/-- A context whose three variants each provide the tool `"t"`. -/
def ctxC6 : RContext :=
  { success := true, tools := [(1, ["t"]), (2, ["t"]), (3, ["t"])] }

/-- The single entry of `suiteC6`. -/
def entC6 : ContextData :=
  { name := "c", context := some ctxC6, tool_aliases := [],
    hidden_tools := [], description := none, priority := 1, pfx := none,
    sfx := none }

/-- A suite with one context exposing alias `"t"` three times (a three-way
conflict inside a single context, so the two losers tie in priority). -/
def suiteC6 : Suite :=
  { load_path := none, contexts := [("c", entC6)], next_priority := 2,
    tools := none, tool_conflicts := none }

/-- The literal ordering statement of claim C6: conflict lists are ordered
by STRICTLY descending priority of the losing context. -/
def claimC6Literal : Prop :=
  ∀ (disk : Disk) (s : Suite) (tb : ToolTables), s.WF →
    computeTables disk s = some tb →
    ∀ a l, alookup tb.tool_conflicts a = some l →
      l.Pairwise fun x y => claimPriority s y < claimPriority s x

/-- C6, counterexample: in `suiteC6` the alias `"t"` is claimed three times
by the SAME context (one claim per variant), so its two conflict-list
entries have equal losing-context priority — the ordering is not strict. -/
theorem claim6_counterexample : ¬ claimC6Literal := by
  intro h
  have h2 := h disk0 suiteC6
    { tools := [("t", ⟨"t", "t", "c", 1⟩)],
      tool_conflicts := [("t", [⟨"t", "t", "c", 2⟩, ⟨"t", "t", "c", 3⟩])] }
    (by decide) (by decide) "t" [⟨"t", "t", "c", 2⟩, ⟨"t", "t", "c", 3⟩]
    (by decide)
  have h3 := List.rel_of_pairwise_cons h2
    (List.mem_cons_self (⟨"t", "t", "c", 3⟩ : ResolvedTool) [])
  exact absurd h3 (by decide)

/-- C6 (amended): every conflict-table entry is a non-empty list ordered by
WEAKLY descending priority of the losing contexts (two losers from the same
context tie — the counterexample shows strictness fails exactly there); an
alias with no conflicts is absent from the conflict table (its lookup yields
`none`), and `get_alias_conflicts` on an absent alias returns "no conflicts"
(`none`), not an error. -/
theorem claim6_theorem (disk : Disk) (s : Suite) (tb : ToolTables)
    (hWF : s.WF) (hct : computeTables disk s = some tb) :
    (∀ a l, alookup tb.tool_conflicts a = some l →
      l ≠ [] ∧ l.Pairwise fun x y => claimPriority s y ≤ claimPriority s x) ∧
    (∀ a, alookup tb.tool_conflicts a = none → s.tools = none →
      ∃ s', s.get_alias_conflicts disk a = some (s', none)) := by
  constructor
  · intro a l hl
    obtain ⟨L, hL, he⟩ := computeTables_inv disk s tb hct
    obtain ⟨-, spec2⟩ := tablesOfStream_spec (streamOf L) a
    rw [← he] at spec2
    rw [hl] at spec2
    by_cases hlen : 2 ≤ (filterAlias (streamOf L) a).length
    · rw [if_pos hlen] at spec2
      injection spec2 with spec2
      constructor
      · rw [spec2]
        intro htail
        have := congrArg List.length htail
        rw [List.length_tail] at this
        simp at this
        omega
      · rw [spec2]
        exact ((streamOf_pairwise disk s hWF L hL).sublist
          (List.filter_sublist _)).sublist (List.tail_sublist _)
    · rw [if_neg hlen] at spec2
      simp at spec2
  · intro a hnone htools
    refine ⟨{ s with
        tools := some tb.tools,
        tool_conflicts := some tb.tool_conflicts }, ?_⟩
    simp only [Suite.get_alias_conflicts, Suite.update_tools, htools, hct,
      Option.map_some]
    simp [hnone]

/-- C6, witness: on `suiteC6` the conflict list of `"t"` is non-empty and
weakly descending, and querying the absent alias `"x"` yields `none` without
error. -/
theorem claim6_witness :
    ([(⟨"t", "t", "c", 2⟩ : ResolvedTool), ⟨"t", "t", "c", 3⟩] ≠ [] ∧
      List.Pairwise (fun x y =>
          claimPriority suiteC6 y ≤ claimPriority suiteC6 x)
        [(⟨"t", "t", "c", 2⟩ : ResolvedTool), ⟨"t", "t", "c", 3⟩]) ∧
    ∃ s', suiteC6.get_alias_conflicts disk0 "x" = some (s', none) := by
  have h := claim6_theorem disk0 suiteC6
    { tools := [("t", ⟨"t", "t", "c", 1⟩)],
      tool_conflicts := [("t", [⟨"t", "t", "c", 2⟩, ⟨"t", "t", "c", 3⟩])] }
    (by decide) (by decide)
  exact ⟨h.1 "t" [⟨"t", "t", "c", 2⟩, ⟨"t", "t", "c", 3⟩] (by decide),
    h.2 "x" (by decide) (by decide)⟩

/-! ### Claim C7 -/

/-- The registry mutations of the spec's §4.1 (plus an explicit `resolve`
step), as a syntax of operations applied in sequence. -/
inductive Op where
  | addContext (name : String) (context : RContext)
      (description : Option String)
  | removeContext (name : String)
  | setPfx (name p : String)
  | setSfx (name p : String)
  | bump (name : String)
  | hideTool (context_name tool_name : String)
  | unhideTool (context_name tool_name : String)
  | aliasTool (context_name tool_name tool_alias : String)
  | dealiasTool (context_name tool_name : String)
  | resolve

/-- Apply one operation.  A raised `SuiteError` leaves the suite unchanged
(every raise precedes any state change); a `resolve` whose recomputation
fails (an unavailable context) is modelled as leaving the suite unchanged —
the Python raises out of `_update_tools` there, additionally leaving a
partially built cache whose entries come from the same registry state, so
the invariant verified below is unaffected by this simplification. -/
def applyOp (disk : Disk) (s : Suite) : Op → Suite
  | .addContext n c de =>
    match s.add_context n c de with | .ok s' => s' | .error _ => s
  | .removeContext n =>
    match s.remove_context n with | .ok s' => s' | .error _ => s
  | .setPfx n p =>
    match s.set_context_pfx n p with | .ok s' => s' | .error _ => s
  | .setSfx n p =>
    match s.set_context_sfx n p with | .ok s' => s' | .error _ => s
  | .bump n =>
    match s.bump_context n with | .ok s' => s' | .error _ => s
  | .hideTool cn tn =>
    match s.hide_tool cn tn with | .ok s' => s' | .error _ => s
  | .unhideTool cn tn =>
    match s.unhide_tool cn tn with | .ok s' => s' | .error _ => s
  | .aliasTool cn tn ta =>
    match s.alias_tool cn tn ta with | .ok s' => s' | .error _ => s
  | .dealiasTool cn tn =>
    match s.dealias_tool cn tn with | .ok s' => s' | .error _ => s
  | .resolve =>
    match s.update_tools disk with | some s' => s' | none => s

/-- A sequence of operations applied left to right. -/
def applyOps (disk : Disk) (s : Suite) (ops : List Op) : Suite :=
  ops.foldl (applyOp disk) s

/-- The memoization-consistency invariant: the cache is either invalid
(both fields `None`, as after `_flush_tools`) or holds exactly the tables
recomputed from the current registry state. -/
def CacheOK (disk : Disk) (s : Suite) : Prop :=
  (s.tools = none ∧ s.tool_conflicts = none) ∨
  (∃ tb, computeTables disk s = some tb ∧ s.tools = some tb.tools ∧
    s.tool_conflicts = some tb.tool_conflicts)

theorem materializeList_congr (disk : Disk) (s s' : Suite)
    (ds : List ContextData)
    (hf : ∀ cn, materializeFor disk s' cn = materializeFor disk s cn) :
    materializeList disk s' ds = materializeList disk s ds := by
  induction ds with
  | nil => rfl
  | cons d t ih => simp only [materializeList, hf, ih]

/-- The resolution cache fields do not feed back into recomputation. -/
theorem computeTables_cache_irrelevant (disk : Disk) (s : Suite)
    (a : Option (List (String × ResolvedTool)))
    (b : Option (List (String × List ResolvedTool))) :
    computeTables disk { s with tools := a, tool_conflicts := b } =
      computeTables disk s := by
  unfold computeTables Suite.materializedCtxs
  rw [show ({ s with tools := a, tool_conflicts := b } : Suite).sortedDescCtxs
      = s.sortedDescCtxs from rfl]
  rw [materializeList_congr disk s { s with tools := a, tool_conflicts := b }
      s.sortedDescCtxs (fun cn => rfl)]

/-- Cleanliness of resolved tables with respect to a registry state: every
resolved tool (winner or conflict loser) names a context entry still present
in the registry, and its tool is not hidden in that entry. -/
def TablesClean (s : Suite) (tb : ToolTables) : Prop :=
  (∀ pr ∈ tb.tools, ∃ q ∈ s.contexts,
    q.2.name = pr.2.context_name ∧ pr.2.tool_name ∉ q.2.hidden_tools) ∧
  (∀ pr ∈ tb.tool_conflicts, ∀ rt ∈ pr.2, ∃ q ∈ s.contexts,
    q.2.name = rt.context_name ∧ rt.tool_name ∉ q.2.hidden_tools)

theorem mem_addConflict (c : List (String × List ResolvedTool)) (a : String)
    (x : ResolvedTool) (p : String × List ResolvedTool)
    (hp : p ∈ addConflict c a x) (rt : ResolvedTool) (hrt : rt ∈ p.2) :
    (∃ q ∈ c, rt ∈ q.2) ∨ rt = x := by
  induction c with
  | nil =>
    simp [addConflict] at hp
    rw [hp] at hrt
    simp at hrt
    exact Or.inr hrt
  | cons q t ih =>
    obtain ⟨k, v⟩ := q
    by_cases hk : k = a
    · simp only [addConflict, if_pos hk] at hp
      rcases List.mem_cons.mp hp with h' | h'
      · rw [h'] at hrt
        simp only at hrt
        rcases List.mem_append.mp hrt with h'' | h''
        · exact Or.inl ⟨(k, v), List.mem_cons_self _ _, h''⟩
        · simp at h''
          exact Or.inr h''
      · exact Or.inl ⟨p, List.mem_cons_of_mem _ h', hrt⟩
    · simp only [addConflict, if_neg hk] at hp
      rcases List.mem_cons.mp hp with h' | h'
      · rw [h'] at hrt
        exact Or.inl ⟨(k, v), List.mem_cons_self _ _, hrt⟩
      · rcases ih h' with h'' | h''
        · obtain ⟨q', hq', hrt'⟩ := h''
          exact Or.inl ⟨q', List.mem_cons_of_mem _ hq', hrt'⟩
        · exact Or.inr h''

/-- Every resolved tool recorded in the folded tables is an element of the
claim stream. -/
theorem tablesOfStream_mem (l : List ResolvedTool) :
    (∀ p ∈ (tablesOfStream l).tools, p.2 ∈ l) ∧
    (∀ p ∈ (tablesOfStream l).tool_conflicts, ∀ rt ∈ p.2, rt ∈ l) := by
  induction l using List.reverseRecOn with
  | nil => constructor <;> simp [tablesOfStream]
  | append_singleton l x ih =>
    have hstep : tablesOfStream (l ++ [x]) = insertRT (tablesOfStream l) x := by
      simp [tablesOfStream, List.foldl_append]
    obtain ⟨ih1, ih2⟩ := ih
    rw [hstep]
    cases h : alookup (tablesOfStream l).tools x.tool_alias with
    | some rt =>
      have hins : insertRT (tablesOfStream l) x =
          { tablesOfStream l with
            tool_conflicts :=
              addConflict (tablesOfStream l).tool_conflicts x.tool_alias x } := by
        simp [insertRT, h]
      rw [hins]
      constructor
      · intro p hp
        exact List.mem_append_left _ (ih1 p hp)
      · intro p hp rt' hrt'
        rcases mem_addConflict _ _ _ p hp rt' hrt' with h' | h'
        · obtain ⟨q, hq, hrt''⟩ := h'
          exact List.mem_append_left _ (ih2 q hq rt' hrt'')
        · rw [h']
          exact List.mem_append_right _ (List.mem_singleton_self _)
    | none =>
      have hins : insertRT (tablesOfStream l) x =
          { tablesOfStream l with
            tools := (tablesOfStream l).tools ++ [(x.tool_alias, x)] } := by
        simp [insertRT, h]
      rw [hins]
      constructor
      · intro p hp
        rcases List.mem_append.mp hp with h' | h'
        · exact List.mem_append_left _ (ih1 p h')
        · simp at h'
          rw [h']
          exact List.mem_append_right _ (List.mem_singleton_self _)
      · intro p hp rt' hrt'
        exact List.mem_append_left _ (ih2 p hp rt' hrt')

/-- Every claim of the stream names a present, non-hiding context entry. -/
theorem stream_clean (disk : Disk) (s : Suite)
    (L : List (ContextData × RContext)) (hL : s.materializedCtxs disk = some L)
    (rt : ResolvedTool) (hrt : rt ∈ streamOf L) :
    ∃ q ∈ s.contexts, q.2.name = rt.context_name ∧
      rt.tool_name ∉ q.2.hidden_tools := by
  obtain ⟨p, hp, hpcl⟩ := mem_streamOf hrt
  obtain ⟨hmem, -⟩ := materializeList_mem disk s _ L hL p hp
  rw [mem_sortedDescCtxs] at hmem
  obtain ⟨q, hq, hqd⟩ := List.mem_map.mp hmem
  obtain ⟨hcn, hhid, -, -⟩ := mem_claimsOf hpcl
  exact ⟨q, hq, by rw [hqd, ← hcn], by rw [hqd]; exact hhid⟩

/-- Recomputed tables are clean with respect to the registry they were
computed from. -/
theorem computeTables_clean (disk : Disk) (s : Suite) (tb : ToolTables)
    (hct : computeTables disk s = some tb) : TablesClean s tb := by
  obtain ⟨L, hL, rfl⟩ := computeTables_inv disk s tb hct
  obtain ⟨hm1, hm2⟩ := tablesOfStream_mem (streamOf L)
  constructor
  · intro p hp
    exact stream_clean disk s L hL p.2 (hm1 p hp)
  · intro p hp rt hrt
    exact stream_clean disk s L hL rt (hm2 p hp rt hrt)

/-- Every operation preserves memoization consistency: mutations either
leave the suite untouched (error and no-op paths) or flush the cache, and
`resolve` installs exactly the recomputed tables. -/
theorem applyOp_cacheOK (disk : Disk) (s : Suite) (op : Op)
    (h : CacheOK disk s) : CacheOK disk (applyOp disk s op) := by
  cases op with
  | addContext n c de =>
    simp only [applyOp]
    cases he : s.add_context n c de with
    | error e => exact h
    | ok s' =>
      left
      simp only [Suite.add_context] at he
      by_cases h1 : (alookup s.contexts n).isSome
      · rw [if_pos h1] at he; simp at he
      · rw [if_neg h1] at he
        by_cases h2 : !c.success
        · rw [if_pos h2] at he; simp at he
        · rw [if_neg h2] at he
          injection he with he
          rw [← he]
          exact ⟨rfl, rfl⟩
  | removeContext n =>
    simp only [applyOp]
    cases he : s.remove_context n with
    | error e => exact h
    | ok s' =>
      left
      simp only [Suite.remove_context] at he
      cases hc : s.ctxData n with
      | error e => rw [hc] at he; simp at he
      | ok d =>
        rw [hc] at he
        injection he with he
        rw [← he]
        exact ⟨rfl, rfl⟩
  | setPfx n p =>
    simp only [applyOp]
    cases he : s.set_context_pfx n p with
    | error e => exact h
    | ok s' =>
      left
      simp only [Suite.set_context_pfx] at he
      cases hc : s.ctxData n with
      | error e => rw [hc] at he; simp at he
      | ok d =>
        rw [hc] at he
        injection he with he
        rw [← he]
        exact ⟨rfl, rfl⟩
  | setSfx n p =>
    simp only [applyOp]
    cases he : s.set_context_sfx n p with
    | error e => exact h
    | ok s' =>
      left
      simp only [Suite.set_context_sfx] at he
      cases hc : s.ctxData n with
      | error e => rw [hc] at he; simp at he
      | ok d =>
        rw [hc] at he
        injection he with he
        rw [← he]
        exact ⟨rfl, rfl⟩
  | bump n =>
    simp only [applyOp]
    cases he : s.bump_context n with
    | error e => exact h
    | ok s' =>
      left
      simp only [Suite.bump_context] at he
      cases hc : s.ctxData n with
      | error e => rw [hc] at he; simp at he
      | ok d =>
        rw [hc] at he
        injection he with he
        rw [← he]
        exact ⟨rfl, rfl⟩
  | hideTool cn tn =>
    simp only [applyOp]
    cases he : s.hide_tool cn tn with
    | error e => exact h
    | ok s' =>
      simp only [Suite.hide_tool] at he
      cases hc : s.ctxData cn with
      | error e => rw [hc] at he; simp at he
      | ok d =>
        rw [hc] at he
        dsimp only at he
        by_cases hm : tn ∈ d.hidden_tools
        · rw [if_pos hm] at he
          injection he with he
          rw [← he]
          exact h
        · rw [if_neg hm] at he
          injection he with he
          rw [← he]
          exact Or.inl ⟨rfl, rfl⟩
  | unhideTool cn tn =>
    simp only [applyOp]
    cases he : s.unhide_tool cn tn with
    | error e => exact h
    | ok s' =>
      simp only [Suite.unhide_tool] at he
      cases hc : s.ctxData cn with
      | error e => rw [hc] at he; simp at he
      | ok d =>
        rw [hc] at he
        dsimp only at he
        by_cases hm : tn ∈ d.hidden_tools
        · rw [if_pos hm] at he
          injection he with he
          rw [← he]
          exact Or.inl ⟨rfl, rfl⟩
        · rw [if_neg hm] at he
          injection he with he
          rw [← he]
          exact h
  | aliasTool cn tn ta =>
    simp only [applyOp]
    cases he : s.alias_tool cn tn ta with
    | error e => exact h
    | ok s' =>
      simp only [Suite.alias_tool] at he
      cases hc : s.ctxData cn with
      | error e => rw [hc] at he; simp at he
      | ok d =>
        rw [hc] at he
        dsimp only at he
        by_cases hm : (alookup d.tool_aliases tn).isSome
        · rw [if_pos hm] at he
          injection he with he
          rw [← he]
          exact h
        · rw [if_neg hm] at he
          injection he with he
          rw [← he]
          exact Or.inl ⟨rfl, rfl⟩
  | dealiasTool cn tn =>
    simp only [applyOp]
    cases he : s.dealias_tool cn tn with
    | error e => exact h
    | ok s' =>
      simp only [Suite.dealias_tool] at he
      cases hc : s.ctxData cn with
      | error e => rw [hc] at he; simp at he
      | ok d =>
        rw [hc] at he
        dsimp only at he
        by_cases hm : (alookup d.tool_aliases tn).isSome
        · rw [if_pos hm] at he
          injection he with he
          rw [← he]
          exact Or.inl ⟨rfl, rfl⟩
        · rw [if_neg hm] at he
          injection he with he
          rw [← he]
          exact h
  | resolve =>
    simp only [applyOp]
    cases he : s.update_tools disk with
    | none => exact h
    | some s' =>
      simp only [Suite.update_tools] at he
      cases ht : s.tools with
      | some t =>
        rw [ht] at he
        injection he with he
        rw [← he]
        exact h
      | none =>
        rw [ht] at he
        cases hct : computeTables disk s with
        | none => rw [hct] at he; simp at he
        | some tb =>
          rw [hct] at he
          injection he with he
          show CacheOK disk s'
          rw [← he]
          exact Or.inr ⟨tb,
            (computeTables_cache_irrelevant disk s _ _).trans hct, rfl, rfl⟩

theorem applyOps_cacheOK (disk : Disk) (s : Suite) (ops : List Op)
    (h : CacheOK disk s) : CacheOK disk (applyOps disk s ops) := by
  induction ops generalizing s with
  | nil => exact h
  | cons op t ih => exact ih (applyOp disk s op) (applyOp_cacheOK disk s op h)

/-- C7: after any sequence of mutations starting from a suite with a
consistent cache, the tables returned by `resolve()` (`_update_tools`
followed by reading the cache) never contain an alias claimed by a hidden
tool nor by a tool whose owning context has been removed — every winner and
every conflict loser names a context entry still present in the registry, in
which its tool is not hidden. -/
theorem claim7_theorem (disk : Disk) (s0 : Suite) (ops : List Op)
    (hcache : CacheOK disk s0) (s' : Suite) (t : List (String × ResolvedTool))
    (c : List (String × List ResolvedTool))
    (hres : (applyOps disk s0 ops).update_tools disk = some s')
    (ht : s'.tools = some t) (hc : s'.tool_conflicts = some c) :
    TablesClean (applyOps disk s0 ops) ⟨t, c⟩ := by
  have hok : CacheOK disk (applyOps disk s0 ops) :=
    applyOps_cacheOK disk s0 ops hcache
  set s1 := applyOps disk s0 ops with hs1
  simp only [Suite.update_tools] at hres
  cases ht1 : s1.tools with
  | some t1 =>
    rw [ht1] at hres
    injection hres with hres
    rw [← hres] at ht hc
    rw [ht1] at ht
    rcases hok with ⟨h1, -⟩ | ⟨tb, htb, htools, hconf⟩
    · rw [h1] at ht1; simp at ht1
    · rw [htools] at ht1
      injection ht1 with ht1
      injection ht with ht
      rw [hconf] at hc
      injection hc with hc
      have he2 : tb = ⟨t, c⟩ := by
        obtain ⟨tbt, tbc⟩ := tb
        simp only at ht1 ht hc
        rw [ht1, ht, hc]
      rw [← he2]
      exact computeTables_clean disk s1 tb htb
  | none =>
    rw [ht1] at hres
    cases hct : computeTables disk s1 with
    | none => rw [hct] at hres; simp at hres
    | some tb =>
      rw [hct] at hres
      injection hres with hres
      rw [← hres] at ht hc
      dsimp only at ht hc
      injection ht with ht
      injection hc with hc
      have he2 : tb = ⟨t, c⟩ := by
        obtain ⟨tbt, tbc⟩ := tb
        simp only at ht hc
        rw [← ht, ← hc]
      rw [← he2]
      exact computeTables_clean disk s1 tb hct

/-- The two-context suite after hiding `"t"` in context `"B"`. -/
def suite7m : Suite :=
  { load_path := none,
    contexts := [("A", entC1 "A" 2),
      ("B", { entC1 "B" 1 with hidden_tools := ["t"] })],
    next_priority := 3, tools := none, tool_conflicts := none }

/-- `suite7m` after `_update_tools` has installed the recomputed tables. -/
def suite7r : Suite :=
  { suite7m with
    tools := some [("t", ⟨"t", "t", "A", 1⟩)],
    tool_conflicts := some ([] : List (String × List ResolvedTool)) }

/-- C7, witness: hiding `"t"` in context `"B"` of the two-context suite and
resolving — the tables are clean for the mutated registry. -/
theorem claim7_witness :
    ∃ s' t c,
      (applyOps disk0 suite2 [Op.hideTool "B" "t"]).update_tools disk0 =
        some s' ∧
      s'.tools = some t ∧ s'.tool_conflicts = some c ∧
      TablesClean (applyOps disk0 suite2 [Op.hideTool "B" "t"]) ⟨t, c⟩ := by
  refine ⟨suite7r, [("t", ⟨"t", "t", "A", 1⟩)], [],
    by decide, by decide, by decide, ?_⟩
  exact claim7_theorem disk0 suite2 [Op.hideTool "B" "t"] (Or.inl ⟨rfl, rfl⟩)
    suite7r [("t", ⟨"t", "t", "A", 1⟩)] [] (by decide) (by decide) (by decide)

/-! ### Claim C4 -/

theorem stripCtx_priority (d : ContextData) :
    (stripCtx d).priority = d.priority := rfl

theorem orderedInsert_strip (x : ContextData) (l : List ContextData) :
    List.orderedInsert ctxLE (stripCtx x) (l.map stripCtx) =
      (List.orderedInsert ctxLE x l).map stripCtx := by
  induction l with
  | nil => simp
  | cons y t ih =>
    by_cases h : ctxLE x y
    · have h' : ctxLE (stripCtx x) (stripCtx y) := h
      simp [List.orderedInsert, h, h']
    · have h' : ¬ ctxLE (stripCtx x) (stripCtx y) := h
      simp [List.orderedInsert, h, h', ih]

theorem insertionSort_strip (l : List ContextData) :
    List.insertionSort ctxLE (l.map stripCtx) =
      (List.insertionSort ctxLE l).map stripCtx := by
  induction l with
  | nil => simp
  | cons x t ih => simp [List.insertionSort, ih, orderedInsert_strip]

theorem alookup_map_strip (l : List (String × ContextData)) (k : String) :
    alookup (l.map fun p => (p.1, stripCtx p.2)) k =
      (alookup l k).map stripCtx := by
  induction l with
  | nil => simp [alookup]
  | cons p t ih =>
    obtain ⟨k0, d0⟩ := p
    by_cases h : k0 = k <;> simp [alookup, h, ih]

theorem append_rxt_inj (a b : String) (h : a ++ ".rxt" = b ++ ".rxt") :
    a = b := by
  have hd : a.data ++ ".rxt".data = b.data ++ ".rxt".data := by
    have := congrArg String.data h
    simpa [String.data_append] using this
  have := (List.append_inj' hd rfl).1
  exact String.ext this

theorem snapshotList_spec (disk : Disk) (s : Suite)
    (l : List (String × ContextData)) (files : List (String × RContext))
    (h : snapshotList disk s l = some files) :
    files.map Prod.fst = l.map Prod.fst ∧
    ∀ q ∈ files, materializeFor disk s q.1 = some q.2 := by
  induction l generalizing files with
  | nil =>
    simp [snapshotList] at h
    subst h
    simp
  | cons p t ih =>
    simp only [snapshotList] at h
    cases hm : materializeFor disk s p.1 with
    | none => rw [hm] at h; simp at h
    | some c =>
      rw [hm] at h
      cases ht : snapshotList disk s t with
      | none => rw [ht] at h; simp at h
      | some files' =>
        rw [ht] at h
        simp only [Option.some.injEq] at h
        subst h
        obtain ⟨ih1, ih2⟩ := ih files' ht
        constructor
        · simp [ih1]
        · intro q hq
          rcases List.mem_cons.mp hq with h' | h'
          · rw [h']; exact hm
          · exact ih2 q h'

theorem find_rxt (files : List (String × RContext)) (path k : String)
    (c : RContext) (hnd : (files.map Prod.fst).Nodup)
    (hmem : (k, c) ∈ files) :
    (files.find? fun p => [path, "contexts", p.1 ++ ".rxt"] =
      [path, "contexts", k ++ ".rxt"]).map Prod.snd = some c := by
  induction files with
  | nil => simp at hmem
  | cons p t ih =>
    obtain ⟨k0, c0⟩ := p
    simp only [List.map_cons, List.nodup_cons] at hnd
    rcases List.mem_cons.mp hmem with h' | h'
    · injection h' with h1 h2
      subst h1; subst h2
      simp [List.find?]
    · have hk0 : k0 ≠ k := by
        intro hk; subst hk
        exact hnd.1 (List.mem_map.mpr ⟨(k0, c), h', rfl⟩)
      have hne : ¬ ([path, "contexts", k0 ++ ".rxt"] =
          [path, "contexts", k ++ ".rxt"]) := by
        intro he
        injection he with h1 h2
        injection h2 with h3 h4
        injection h4 with h5 h6
        exact hk0 (append_rxt_inj k0 k h5)
      have hdec : (decide ([path, "contexts", k0 ++ ".rxt"] =
          [path, "contexts", k ++ ".rxt"])) = false := decide_eq_false hne
      simp only [List.find?, hdec]
      exact ih hnd.2 h'

/-- Reading a saved snapshot back through the suite directory layout: the
stub-visible disk serves exactly the snapshot of each saved context. -/
theorem diskAt_lookup (sv : SavedSuite) (path : String) (k : String)
    (c : RContext) (hnd : (sv.ctxFiles.map Prod.fst).Nodup)
    (hmem : (k, c) ∈ sv.ctxFiles) :
    sv.diskAt path [path, "contexts", k ++ ".rxt"] = some c :=
  find_rxt sv.ctxFiles path k c hnd hmem

theorem alookup_some_mem {β : Type} (l : List (String × β)) (k : String)
    (v : β) (h : alookup l k = some v) : (k, v) ∈ l := by
  induction l with
  | nil => simp [alookup] at h
  | cons p t ih =>
    obtain ⟨k0, v0⟩ := p
    by_cases hk : k0 = k
    · subst hk
      unfold alookup at h
      rw [if_pos rfl] at h
      injection h with h
      subst h
      exact List.mem_cons_self _ _
    · simp only [alookup, if_neg hk] at h
      exact List.mem_cons_of_mem _ (ih h)

/-- Stripping the live-context field changes nothing the resolution loop
reads. -/
theorem processEntry_strip (acc : ToolTables) (p : ContextData × RContext) :
    processEntry acc (stripCtx p.1, p.2) = processEntry acc p := rfl

theorem foldl_processEntry_strip (L : List (ContextData × RContext))
    (acc : ToolTables) :
    (L.map fun p => (stripCtx p.1, p.2)).foldl processEntry acc =
      L.foldl processEntry acc := by
  induction L generalizing acc with
  | nil => rfl
  | cons p t ih =>
    simp only [List.map_cons, List.foldl_cons, processEntry_strip, ih]

theorem materializeList_strip (disk dk2 : Disk) (s s2 : Suite)
    (hfor : ∀ cn, materializeFor dk2 s2 cn = materializeFor disk s cn)
    (ds : List ContextData) (L : List (ContextData × RContext))
    (h : materializeList disk s ds = some L) :
    materializeList dk2 s2 (ds.map stripCtx) =
      some (L.map fun p => (stripCtx p.1, p.2)) := by
  induction ds generalizing L with
  | nil =>
    simp [materializeList] at h
    subst h
    simp [materializeList]
  | cons d t ih =>
    simp only [materializeList] at h
    cases hm : materializeFor disk s d.name with
    | none => rw [hm] at h; simp at h
    | some c =>
      rw [hm] at h
      cases ht : materializeList disk s t with
      | none => rw [ht] at h; simp at h
      | some L' =>
        rw [ht] at h
        simp only [Option.some.injEq] at h
        subst h
        simp only [List.map_cons, materializeList]
        rw [show (stripCtx d).name = d.name from rfl, hfor d.name, hm,
          ih L' ht]

/-- C4: round trip.  Saving a suite (with its three-way alias conflict) and
loading it back yields a registry whose recomputed winning table and
conflict table — re-read through the saved directory layout — are identical
to the original registry's. -/
theorem claim4_theorem (disk : Disk) (s : Suite) (sv : SavedSuite)
    (path : String) (s' : Suite) (tb : ToolTables) (hWF : s.WF)
    (hsave : s.save disk = some sv)
    (hload : Suite.loadSaved sv path = .ok s')
    (hct : computeTables disk s = some tb)
    (_h3 : ∃ a l, alookup tb.tool_conflicts a = some l ∧ 2 ≤ l.length) :
    computeTables (sv.diskAt path) s' = some tb := by
  -- invert save
  simp only [Suite.save] at hsave
  cases hfiles : snapshotList disk s s.contexts with
  | none => rw [hfiles] at hsave; simp at hsave
  | some files =>
  rw [hfiles, hct] at hsave
  simp only [Option.some.injEq] at hsave
  -- invert load
  simp only [Suite.loadSaved, Suite.from_dict] at hload
  cases hmax : maxPriority (sv.suite_yaml.map fun p => p.2.priority) with
  | none => rw [hmax] at hload; simp [Except.map] at hload
  | some m =>
  rw [hmax] at hload
  simp only [Except.map, Except.ok.injEq] at hload
  -- the loaded suite's fields
  have hs'c : s'.contexts = s.contexts.map fun p => (p.1, stripCtx p.2) := by
    rw [← hload]
    rw [← hsave]
    rfl
  have hs'lp : s'.load_path = some path := by
    rw [← hload]
  -- snapshot facts
  obtain ⟨hkeys, hsnap⟩ := snapshotList_spec disk s s.contexts files hfiles
  have hndf : (files.map Prod.fst).Nodup := by
    rw [hkeys]; exact hWF.2
  have hsvf : sv.ctxFiles = files := by rw [← hsave]
  -- context materialization agrees
  have hfor : ∀ cn, materializeFor (sv.diskAt path) s' cn =
      materializeFor disk s cn := by
    intro cn
    cases hl : alookup s.contexts cn with
    | none =>
      have hl2 : alookup s'.contexts cn = none := by
        rw [hs'c, alookup_map_strip, hl]
        rfl
      unfold materializeFor
      simp only [hl2, hl]
    | some d =>
      have hl2 : alookup s'.contexts cn = some (stripCtx d) := by
        rw [hs'c, alookup_map_strip, hl]
        rfl
      -- the snapshot of `cn` exists and equals what the original reads
      have hkey : cn ∈ files.map Prod.fst := by
        rw [hkeys]
        exact List.mem_map.mpr ⟨(cn, d), alookup_some_mem _ _ _ hl, rfl⟩
      obtain ⟨q, hq, hq1⟩ := List.mem_map.mp hkey
      have hdisk : sv.diskAt path [path, "contexts", cn ++ ".rxt"] =
          some q.2 := by
        apply diskAt_lookup sv path cn q.2 (hsvf ▸ hndf)
        rw [hsvf, ← hq1]
        exact hq
      have hmatq := hsnap q hq
      rw [hq1] at hmatq
      have hLHS : materializeFor (sv.diskAt path) s' cn =
          sv.diskAt path [path, "contexts", cn ++ ".rxt"] := by
        unfold materializeFor
        rw [hl2, hs'lp]
        rfl
      rw [hLHS, hdisk, hmatq]
  -- the processing order of the loaded suite is the stripped original order
  have hsorted : s'.sortedDescCtxs = s.sortedDescCtxs.map stripCtx := by
    unfold Suite.sortedDescCtxs Suite.sorted_contexts
    rw [hs'c]
    rw [show ((s.contexts.map fun p => (p.1, stripCtx p.2)).map Prod.snd)
        = (s.contexts.map Prod.snd).map stripCtx by simp [List.map_map]]
    rw [insertionSort_strip, List.map_reverse]
  -- conclude
  obtain ⟨L, hL, htb⟩ := computeTables_inv disk s tb hct
  have hL' : materializeList (sv.diskAt path) s' (s.sortedDescCtxs.map stripCtx)
      = some (L.map fun p => (stripCtx p.1, p.2)) :=
    materializeList_strip disk (sv.diskAt path) s s' hfor s.sortedDescCtxs L hL
  show (Suite.materializedCtxs (sv.diskAt path) s').map
    (List.foldl processEntry ⟨[], []⟩) = some tb
  unfold Suite.materializedCtxs
  rw [hsorted, hL']
  show some ((L.map fun p => (stripCtx p.1, p.2)).foldl processEntry ⟨[], []⟩)
    = some tb
  rw [foldl_processEntry_strip]
  have hval : computeTables disk s = some (L.foldl processEntry ⟨[], []⟩) := by
    show (Suite.materializedCtxs disk s).map
      (List.foldl processEntry ⟨[], []⟩) = _
    rw [hL]
    rfl
  rw [hct] at hval
  injection hval with hval
  rw [← hval]

/-- The on-disk content `save` produces for `suite3`. -/
def sv3 : SavedSuite :=
  { suite_yaml := [("A", stripCtx (entC1 "A" 2)),
      ("B", stripCtx (entC1 "B" 1)), ("C", stripCtx (entC1 "C" 3))],
    ctxFiles := [("A", ctxT), ("B", ctxT), ("C", ctxT)],
    stubs := [("t", "C", "t")] }

/-- `suite3` as re-loaded from `/p`. -/
def suite3Loaded : Suite :=
  { load_path := some "/p", contexts := sv3.suite_yaml, next_priority := 4,
    tools := none, tool_conflicts := none }

/-- The resolved tables of `suite3`: `C` wins the three-way conflict on
`"t"`, `A` and `B` are shadowed. -/
def tb3 : ToolTables :=
  { tools := [("t", ⟨"t", "t", "C", 1⟩)],
    tool_conflicts := [("t", [⟨"t", "t", "A", 1⟩, ⟨"t", "t", "B", 1⟩])] }

/-- C4, witness: the three-context suite with a three-way conflict on `"t"`,
saved and re-loaded from `/p`, resolves (through the saved snapshots) to
exactly the original winning and conflict tables. -/
theorem claim4_witness :
    computeTables (sv3.diskAt "/p") suite3Loaded = some tb3 :=
  claim4_theorem disk0 suite3 sv3 "/p" suite3Loaded tb3 (by decide)
    (by decide) (by decide) (by decide)
    ⟨"t", [⟨"t", "t", "A", 1⟩, ⟨"t", "t", "B", 1⟩], by decide, by decide⟩

end RezSuite
